import Mathlib

/-!
Verification of the DocFS filesystem core (src/utils/filesystem.ts,
src/utils/cache.ts, src/tools/readFiles.ts, src/tools/searchFiles.ts).

Strings from the TypeScript source are embedded as `List Char`; JavaScript
numbers that the code only ever uses as non-negative integers (sizes, line
numbers, timestamps, capacities) are embedded as `Nat`; JSON numbers that may
be negative are `Int`.  Fallible code returns `Except`.  Operations whose
observable effect order matters (ignore-file loads, path validations, content
reads) additionally return an event log.
-/

namespace DocFS

/-- Characters of a string literal (kernel-friendly form of `String.toList`). -/
def chars (s : String) : List Char := s.data

/-- A filesystem path in its raw string form. -/
abbrev Path := List Char

/-- `node:path` separator on POSIX, as used by `filesystem.ts` (`sep`). -/
def sep : Char := '/'

/-- Errors of the DocFS core, from the messages thrown across the source.
`tooLarge` carries the actual and maximum sizes reported by the message
`File too large: N bytes (max: M bytes)` in `readFiles.ts`. -/
inductive ToolError where
  | outsideSandbox
  | notFound
  | isADirectory
  | tooLarge (actual maxSize : Nat)
  | invalidRange
  | statFailure
  | missingPaths
  | emptyPaths
  | tooManyPaths
  deriving DecidableEq, Repr

/-! ## PathSandbox: `validatePathAccess` (filesystem.ts lines 36-47)

`normalize(resolve(p))` depends on the process working directory, so the
composition is abstracted as a parameter `normRes`; the loop over the allowed
roots is translated literally. -/

/-- The `for (const root of allowedRoots)` loop of `validatePathAccess`:
first root whose separator-bounded prefix (or exact equality) matches wins. -/
def validateLoop (normRes : Path → Path) (normalized : Path) :
    List Path → Except ToolError Path
  | [] => .error .outsideSandbox
  | root :: rest =>
    let normalizedRoot := normRes root
    if (normalizedRoot ++ [sep]).isPrefixOf normalized || normalized == normalizedRoot then
      .ok normalized
    else
      validateLoop normRes normalized rest

/-- `validatePathAccess(targetPath, allowedRoots)`:
normalizes the target and scans the allowed roots. -/
def validatePathAccess (normRes : Path → Path) (targetPath : Path)
    (allowedRoots : List Path) : Except ToolError Path :=
  validateLoop normRes (normRes targetPath) allowedRoots

/-- Spec-side predicate (from the spec's words, for the refinement statement):
the normalized path equals the normalized root, or is a descendant of it
under a path-separator-bounded prefix match. -/
def rootAdmits (normalizedRoot normalized : Path) : Prop :=
  normalized = normalizedRoot ∨ ∃ rest, normalized = normalizedRoot ++ sep :: rest

/-! ## MetadataCache: `LRUCache` (cache.ts / searchFiles.ts lines 267-305)

A JavaScript `Map` holds at most one entry per key and iterates in insertion
order; it is embedded as an association list whose head is the eldest
(first-inserted / least-recently-refreshed) binding. -/

/-- `CacheEntry<T> = { value, expires }`. -/
structure CacheEntry (V : Type) where
  value : V
  expires : Nat
  deriving DecidableEq, Repr

/-- `Map.get`: the value bound to `k`, scanning in iteration order. -/
def findEntry [DecidableEq K] (k : K) :
    List (K × CacheEntry V) → Option (CacheEntry V)
  | [] => none
  | (k', e) :: rest => if k' = k then some e else findEntry k rest

/-- `Map.delete`: removes the (unique) binding of `k`, if present. -/
def eraseEntry [DecidableEq K] (k : K) :
    List (K × CacheEntry V) → List (K × CacheEntry V)
  | [] => []
  | (k', e) :: rest => if k' = k then rest else (k', e) :: eraseEntry k rest

/-- `class LRUCache<T>`: capacity, TTL, and the backing map. -/
structure LRUCache (K V : Type) where
  maxSize : Nat
  ttl : Nat
  entries : List (K × CacheEntry V)
  deriving Repr

/-- `new LRUCache(maxSize, ttl)`. -/
def LRUCache.empty (K V : Type) (maxSize ttl : Nat) : LRUCache K V :=
  { maxSize := maxSize, ttl := ttl, entries := [] }

/-- `LRUCache.get(key)` at time `now` (`Date.now()`): expired entries are
deleted and reported absent; hits are re-inserted at the back (MRU). -/
def LRUCache.get [DecidableEq K] (c : LRUCache K V) (k : K) (now : Nat) :
    Option V × LRUCache K V :=
  match findEntry k c.entries with
  | none => (none, c)
  | some e =>
    if now > e.expires then
      (none, { c with entries := eraseEntry k c.entries })
    else
      (some e.value, { c with entries := eraseEntry k c.entries ++ [(k, e)] })

/-- `if (this.cache.has(key)) this.cache.delete(key)` of `set`. -/
def setDelete [DecidableEq K] (k : K) (l : List (K × CacheEntry V)) :
    List (K × CacheEntry V) :=
  if (findEntry k l).isSome then eraseEntry k l else l

/-- `if (this.cache.size > this.maxSize) { delete firstKey }` of `set`:
`firstKey` is the head of iteration order (`undefined` only for an empty
map, in which case nothing is deleted). -/
def setEvict [DecidableEq K] (maxSize : Nat) (l : List (K × CacheEntry V)) :
    List (K × CacheEntry V) :=
  if l.length > maxSize then
    match l.head? with
    | some x => eraseEntry x.1 l
    | none => l
  else l

/-- `LRUCache.set(key, value)` at time `now`: refresh the entry at the back;
on overflow delete `firstKey`. -/
def LRUCache.set [DecidableEq K] (c : LRUCache K V) (k : K) (v : V) (now : Nat) :
    LRUCache K V :=
  { c with
    entries :=
      setEvict c.maxSize
        (setDelete k c.entries ++ [(k, { value := v, expires := now + c.ttl })]) }

/-- `LRUCache.clear()`. -/
def LRUCache.clearAll (c : LRUCache K V) : LRUCache K V :=
  { c with entries := [] }

/-- One client operation on the cache, with its `Date.now()` timestamp. -/
inductive CacheOp (K V : Type) where
  | get (k : K) (now : Nat)
  | set (k : K) (v : V) (now : Nat)
  | clear

/-- Apply one operation (discarding `get`'s returned value). -/
def LRUCache.applyOp [DecidableEq K] (c : LRUCache K V) :
    CacheOp K V → LRUCache K V
  | .get k now => (c.get k now).2
  | .set k v now => c.set k v now
  | .clear => c.clearAll

/-- Run a sequence of operations. -/
def LRUCache.run [DecidableEq K] (c : LRUCache K V) (ops : List (CacheOp K V)) :
    LRUCache K V :=
  ops.foldl LRUCache.applyOp c

/-! ## `matchesPattern` (filesystem.ts lines 186-192)

The source builds
`new RegExp(pattern.replace(/\./g,'\\.').replace(/\*/g,'.*').replace(/\?/g,'.'), 'i')`
and calls `regex.test(fileName)`.  So an original `.` becomes a literal dot,
`*` becomes `.*`, `?` becomes `.`, every other character stands for itself
*as long as it has no special regex meaning*: the source does not escape the
remaining metacharacters (`\ ^ $ + ( ) [ ] | ...`), which reach `new RegExp`
raw, where e.g. `+` quantifies and `[` throws.  The token model below is
therefore faithful only on the patterns accepted by `globFaithfulPattern`
(ASCII, metacharacter-free), and the quantified theorems about it carry that
hypothesis; likewise the ASCII `Char.toLower` folding of the `'i'` flag and
the any-character reading of `.` are faithful only for the plain ASCII,
line-terminator-free names accepted by `plainAsciiName`. -/

/-- One token of the compiled pattern. -/
inductive GlobTok where
  | lit (c : Char)
  | anyOne
  | anyStar
  deriving DecidableEq, Repr

/-- Token list of the compiled regex for a pattern string. -/
def globTokens : List Char → List GlobTok
  | [] => []
  | c :: rest =>
    (if c = '*' then .anyStar else if c = '?' then .anyOne else .lit c) :: globTokens rest

/-- Case-insensitive character comparison (the `'i'` flag). -/
def charMatchI (c d : Char) : Bool := c.toLower == d.toLower

/-- The compiled tokens match the *whole* string `s`. -/
def gmatch (ts : List GlobTok) (s : List Char) : Bool :=
  match ts, s with
  | [], [] => true
  | [], _ :: _ => false
  | .lit _ :: _, [] => false
  | .lit c :: ts', d :: ds => charMatchI c d && gmatch ts' ds
  | .anyOne :: _, [] => false
  | .anyOne :: ts', _ :: ds => gmatch ts' ds
  | .anyStar :: ts', [] => gmatch ts' []
  | .anyStar :: ts', d :: ds => gmatch ts' (d :: ds) || gmatch (.anyStar :: ts') ds
termination_by (s.length, ts.length)

/-- The compiled tokens match some *prefix* of `s`. -/
def gmatchPre (ts : List GlobTok) (s : List Char) : Bool :=
  match ts, s with
  | [], _ => true
  | .lit _ :: _, [] => false
  | .lit c :: ts', d :: ds => charMatchI c d && gmatchPre ts' ds
  | .anyOne :: _, [] => false
  | .anyOne :: ts', _ :: ds => gmatchPre ts' ds
  | .anyStar :: ts', [] => gmatchPre ts' []
  | .anyStar :: ts', d :: ds => gmatchPre ts' (d :: ds) || gmatchPre (.anyStar :: ts') ds
termination_by (s.length, ts.length)

/-- Unanchored `RegExp.test`: the tokens match starting at some position. -/
def regexSearch (ts : List GlobTok) (s : List Char) : Bool :=
  gmatchPre ts s ||
    match s with
    | [] => false
    | _ :: rest => regexSearch ts rest

/-- `matchesPattern(fileName, pattern)`. -/
def matchesPattern (fileName pattern : List Char) : Bool :=
  regexSearch (globTokens pattern) fileName

/-- Spec-side predicate (from the claim's words): the pattern, read as a
simple glob, matches the whole file name. -/
def globMatchesWholeName (pattern fileName : List Char) : Bool :=
  gmatch (globTokens pattern) fileName

/-- Characters the source leaves unescaped that a JS regex treats
specially: `\ ^ $ + ( ) [ ] \x7b \x7d |`. -/
def regexMetaChar (c : Char) : Bool :=
  c == '\\' || c == '^' || c == '$' || c == '+' || c == '(' || c == ')' ||
    c == '[' || c == ']' || c == '\x7b' || c == '\x7d' || c == '|'

/-- Patterns on which `globTokens` agrees with the source's compiled regex:
every character is ASCII and is one of the rewritten `.` `*` `?` or a
character with no special regex meaning.  Other patterns reach `new RegExp`
unescaped (so e.g. `a+b` quantifies and `[` throws) and are outside the
token model. -/
def globFaithfulPattern (pat : List Char) : Bool :=
  pat.all (fun c => decide (c.toNat < 128) &&
    (c == '.' || c == '*' || c == '?' || !regexMetaChar c))

/-- Names on which the model's any-character tokens and ASCII case folding
agree with the JS engine: ASCII text without line terminators (`.` in a JS
regex does not match `\n`/`\r`, and the `'i'` flag also folds non-ASCII
case pairs that `Char.toLower` does not). -/
def plainAsciiName (nm : List Char) : Bool :=
  nm.all (fun c => decide (c.toNat < 128) && c != '\n' && c != '\r')

/-! ## Filesystem model

A directory tree with file contents and stat metadata.  A path below a root
is a list of entry names (segments); `path.join` adds one segment,
`path.relative(base, full)` is the list of segments below `base`.  The
`ignore` package's compiled matcher is modelled as a predicate on the
root-relative segment list. -/

/-- One filesystem object: `stats.size` of a file is its content length. -/
inductive FSEntry where
  | file (nm : List Char) (content : List Char) (mtime : Nat)
  | dir (nm : List Char) (mtime : Nat) (children : List FSEntry)
  deriving Repr

/-- Entry name, as reported by `readdir`. -/
def FSEntry.name : FSEntry → List Char
  | .file nm _ _ => nm
  | .dir nm _ _ => nm

/-- `stats.isDirectory()`. -/
def FSEntry.isDir : FSEntry → Bool
  | .file .. => false
  | .dir .. => true

/-- `stats.size` (0 for directories in this model). -/
def FSEntry.size : FSEntry → Nat
  | .file _ content _ => content.length
  | .dir .. => 0

/-- `stats.mtime`. -/
def FSEntry.mtime : FSEntry → Nat
  | .file _ _ t => t
  | .dir _ t _ => t

/-- Index of the last `'.'` in a name, scanning with position `i`. -/
def lastDotIdxAux : List Char → Nat → Option Nat
  | [], _ => none
  | c :: rest, i =>
    match lastDotIdxAux rest (i + 1) with
    | some j => some j
    | none => if c = '.' then some i else none

/-- Index of the last `'.'` in a name. -/
def lastDotIdx (nm : List Char) : Option Nat := lastDotIdxAux nm 0

/-- `extname(path).slice(1)` on a base name: characters after the last dot;
empty when there is no dot or the only dot is leading or trailing. -/
def extOf (nm : List Char) : List Char :=
  match lastDotIdx nm with
  | some i => if i = 0 then [] else nm.drop (i + 1)
  | none => []

/-- `FileInfo` (types/index.ts): stat metadata plus identity path.
`modified` keeps the raw timestamp rather than its ISO rendering. -/
structure FileInfo where
  path : List (List Char)
  name : List Char
  size : Nat
  modified : Nat
  isDirectory : Bool
  extension : Option (List Char)
  deriving DecidableEq, Repr

/-- `getFileInfo` on an entry whose absolute path is `absPath`; the
metadata cache is read-through (hit and miss agree with `stat` for an
unchanged file), so the traversal model reads the tree directly. -/
def fileInfoOf (e : FSEntry) (absPath : List (List Char)) : FileInfo :=
  { path := absPath
    name := e.name
    size := e.size
    modified := e.mtime
    isDirectory := e.isDir
    extension := if e.isDir then none else some (extOf e.name) }

/-- Compiled `ignore` matcher: `matcher.ignores(relPath)`. -/
abbrev IgnoreMatcher := List (List Char) → Bool

/-- `entry.startsWith('.')`. -/
def isHiddenName (nm : List Char) : Bool := nm.head? == some '.'

/-- `ListFilesOptions` with the defaults of `listFiles`. -/
structure ListFilesOptions where
  recursive : Bool := true
  maxDepth : Nat := 10
  includeHidden : Bool := false
  pattern : Option (List Char) := none

/-- `if (pattern && !matchesPattern(fileInfo.name, pattern)) continue`:
an absent — or, being falsy, empty — pattern filters nothing. -/
def patternKeeps (pattern : Option (List Char)) (nm : List Char) : Bool :=
  match pattern with
  | none => true
  | some pat => if pat.isEmpty then true else matchesPattern nm pat

mutual

/-- `walkDirectory` (filesystem.ts lines 128-181): depth guard, then the
entry loop.  `absPath`/`relPath` are the segment forms of `dirPath` and
`relative(basePath, dirPath)`. -/
def walkDirectory (matcher : IgnoreMatcher) (opts : ListFilesOptions)
    (absPath relPath : List (List Char)) (currentDepth : Nat)
    (entries : List FSEntry) : List FileInfo :=
  if currentDepth > opts.maxDepth then []
  else walkList matcher opts absPath relPath currentDepth entries

/-- The `for (const entry of entries)` loop body of `walkDirectory`. -/
def walkList (matcher : IgnoreMatcher) (opts : ListFilesOptions)
    (absPath relPath : List (List Char)) (currentDepth : Nat) :
    List FSEntry → List FileInfo
  | [] => []
  | e :: rest =>
    let nm := e.name
    if !opts.includeHidden && isHiddenName nm then
      walkList matcher opts absPath relPath currentDepth rest
    else
      let fullAbs := absPath ++ [nm]
      let fullRel := relPath ++ [nm]
      if matcher fullRel then
        walkList matcher opts absPath relPath currentDepth rest
      else
        let info := fileInfoOf e fullAbs
        match e with
        | .dir _ _ children =>
          (info ::
            (if opts.recursive then
              walkDirectory matcher opts fullAbs fullRel (currentDepth + 1) children
            else [])) ++
            walkList matcher opts absPath relPath currentDepth rest
        | .file .. =>
          if patternKeeps opts.pattern nm then
            info :: walkList matcher opts absPath relPath currentDepth rest
          else
            walkList matcher opts absPath relPath currentDepth rest

end

/-- Lexicographic code-point order on names, modelling the default-locale
`a.name.localeCompare(b.name) <= 0`. -/
def nameLe : List Char → List Char → Bool
  | [], _ => true
  | _ :: _, [] => false
  | c :: cs, d :: ds => if c = d then nameLe cs ds else decide (c < d)

/-- The `listFiles` sort comparator: directories first, then by name. -/
def fileInfoLe (a b : FileInfo) : Bool :=
  if a.isDirectory && !b.isDirectory then true
  else if !a.isDirectory && b.isDirectory then false
  else nameLe a.name b.name

/-- The pure part of `listFiles` (filesystem.ts lines 98-123): walk from the
root (depth 0, `basePath = rootPath`), then sort. -/
def listFilesPure (matcher : IgnoreMatcher) (opts : ListFilesOptions)
    (rootPath : List (List Char)) (rootEntries : List FSEntry) : List FileInfo :=
  (walkDirectory matcher opts rootPath [] 0 rootEntries).mergeSort fileInfoLe

/-- A `DirTreeNode`: the entry's `FileInfo`, plus children for directories
visited below `maxDepth`. -/
inductive DirTreeNode where
  | mk (info : FileInfo) (children : Option (List DirTreeNode))
  deriving Repr

/-- The node's `FileInfo` part. -/
def DirTreeNode.info : DirTreeNode → FileInfo
  | .mk i _ => i

/-- The node's children, when present. -/
def DirTreeNode.childrenOf : DirTreeNode → Option (List DirTreeNode)
  | .mk _ c => c

/-- The children sort comparator of `getDirectoryTree` (same keys). -/
def nodeLe (a b : DirTreeNode) : Bool := fileInfoLe a.info b.info

/-- Options of `getDirectoryTree` with its defaults. -/
structure TreeOptions where
  maxDepth : Nat := 10
  includeHidden : Bool := false

mutual

/-- `getDirectoryTree` (filesystem.ts lines 197-241) with the matcher made
explicit (the source's recursive calls always pass it; the top-level load is
modelled by `getDirectoryTreeTop` below). -/
def getDirectoryTree (matcher : IgnoreMatcher) (opts : TreeOptions)
    (e : FSEntry) (absPath relPath : List (List Char)) (currentDepth : Nat) :
    DirTreeNode :=
  let info := fileInfoOf e absPath
  match e with
  | .file .. => .mk info none
  | .dir _ _ children =>
    if currentDepth ≥ opts.maxDepth then .mk info none
    else
      .mk info
        (some ((treeChildren matcher opts absPath relPath currentDepth children).mergeSort
          nodeLe))

/-- The `for (const entry of entries)` loop of `getDirectoryTree`. -/
def treeChildren (matcher : IgnoreMatcher) (opts : TreeOptions)
    (absPath relPath : List (List Char)) (currentDepth : Nat) :
    List FSEntry → List DirTreeNode
  | [] => []
  | e :: rest =>
    let nm := e.name
    if !opts.includeHidden && isHiddenName nm then
      treeChildren matcher opts absPath relPath currentDepth rest
    else
      let fullAbs := absPath ++ [nm]
      let fullRel := relPath ++ [nm]
      if matcher fullRel then
        treeChildren matcher opts absPath relPath currentDepth rest
      else
        getDirectoryTree matcher opts e fullAbs fullRel (currentDepth + 1) ::
          treeChildren matcher opts absPath relPath currentDepth rest

end

mutual

/-- All `FileInfo`s appearing in a tree (the node and its descendants). -/
def collectNodes : DirTreeNode → List FileInfo
  | .mk info none => [info]
  | .mk info (some kids) => info :: collectNodesList kids

/-- All `FileInfo`s appearing in a forest. -/
def collectNodesList : List DirTreeNode → List FileInfo
  | [] => []
  | t :: ts => collectNodes t ++ collectNodesList ts

end

/-! ## RangeReader: `readFileContent` (filesystem.ts lines 349-370) -/

/-- `content.split('\n')`: never empty; `""` splits to `[""]`. -/
def splitNl : List Char → List (List Char)
  | [] => [[]]
  | c :: cs =>
    if c = '\n' then [] :: splitNl cs
    else
      match splitNl cs with
      | [] => [[c]]
      | l :: ls => (c :: l) :: ls

/-- `lines.join('\n')`. -/
def joinNl : List (List Char) → List Char
  | [] => []
  | [l] => l
  | l :: ls => l ++ '\n' :: joinNl ls

/-- `readFileContent` on an already decoded content (the `fs.readFile` and
encoding handling live in the callers' model): full content without a range,
otherwise the clamped `[start, end)` line slice rejoined. -/
def readFileContent (content : List Char) (startLine endLine : Option Nat) :
    List Char :=
  match startLine, endLine with
  | none, none => content
  | _, _ =>
    let lines := splitNl content
    let start := (startLine.getD 1) - 1
    let stop := min lines.length (endLine.getD lines.length)
    joinNl ((lines.drop start).take (stop - start))

/-! ## TextSearchEngine: `searchInFile` (filesystem.ts lines 309-337)

The compiled regex is `new RegExp(pattern, caseSensitive ? 'g' : 'gi')` where
`pattern` is the `escapeRegExp`-escaped query, optionally wrapped in `\b`
word-boundary anchors.  The escaped query matches itself literally, so the
matcher is modelled directly on the query characters.  Because the `'g'` flag
is always set, `regex.test` is stateful: it searches from `lastIndex`, moves
`lastIndex` past a hit, and resets it to 0 on a miss. -/

/-- Query-character comparison under the case-sensitivity flag. -/
def charQEq (caseSensitive : Bool) (c d : Char) : Bool :=
  if caseSensitive then c == d else charMatchI c d

/-- The literal query matches at the head of `rest`. -/
def litMatches (caseSensitive : Bool) : List Char → List Char → Bool
  | [], _ => true
  | _ :: _, [] => false
  | c :: qs, d :: ds => charQEq caseSensitive c d && litMatches caseSensitive qs ds

/-- JavaScript `\w`: ASCII letters, digits, underscore. -/
def isWordChar (c : Char) : Bool := c.isAlphanum || c == '_'

/-- Whether the character at index `i` (if any) is a word character. -/
def wordAt (s : List Char) (i : Nat) : Bool :=
  match s[i]? with
  | some c => isWordChar c
  | none => false

/-- `\b` holds at position `p`: word-ness changes between `p-1` and `p`. -/
def boundaryAt (s : List Char) (p : Nat) : Bool :=
  (if p = 0 then false else wordAt s (p - 1)) != wordAt s p

/-- The compiled pattern matches at position `p` of `s` (with `\b` anchors
when `wholeWord` is set; they are zero-width). -/
def matchOkAt (caseSensitive wholeWord : Bool) (q s : List Char) (p : Nat) : Bool :=
  litMatches caseSensitive q (s.drop p) &&
    (!wholeWord || (boundaryAt s p && boundaryAt s (p + q.length)))

/-- First match position `≥ p`, scanning left to right as the regex engine
does; `none` when the remaining room cannot fit the query. -/
def findMatchFrom (caseSensitive wholeWord : Bool) (q s : List Char) (p : Nat) :
    Option Nat :=
  if h : p + q.length ≤ s.length then
    if matchOkAt caseSensitive wholeWord q s p then some p
    else findMatchFrom caseSensitive wholeWord q s (p + 1)
  else none
termination_by s.length + 1 - p

/-- Stateful `regex.test(line)` of a `'g'`-flagged regex: consumes and
produces `lastIndex`. -/
def regexTestG (caseSensitive wholeWord : Bool) (q : List Char) (lastIndex : Nat)
    (s : List Char) : Bool × Nat :=
  match findMatchFrom caseSensitive wholeWord q s lastIndex with
  | some p => (true, p + q.length)
  | none => (false, 0)

/-- `SearchResult` (types/index.ts); `context` is always set by the push. -/
structure SearchResult where
  file : List (List Char)
  line : Nat
  content : List Char
  ctxBefore : List (List Char)
  ctxAfter : List (List Char)
  deriving DecidableEq, Repr

/-- The `for (let i = 0; ...)` loop of `searchInFile`: `rest` is
`allLines.drop i` and `lastIdx` the regex's current `lastIndex`. -/
def searchLoop (fp : List (List Char)) (caseSensitive wholeWord : Bool)
    (q : List Char) (contextLines : Nat) (allLines : List (List Char)) :
    List (List Char) → Nat → Nat → List SearchResult
  | [], _, _ => []
  | line :: rest, i, lastIdx =>
    let step := regexTestG caseSensitive wholeWord q lastIdx line
    if step.1 then
      { file := fp, line := i + 1, content := line
        ctxBefore := (allLines.take i).drop (i - contextLines)
        ctxAfter := (allLines.drop (i + 1)).take contextLines } ::
        searchLoop fp caseSensitive wholeWord q contextLines allLines rest (i + 1) step.2
    else
      searchLoop fp caseSensitive wholeWord q contextLines allLines rest (i + 1) step.2

/-- `searchInFile(filePath, query, ...)` on the file's decoded content. -/
def searchInFile (fp : List (List Char)) (content : List Char) (query : List Char)
    (caseSensitive wholeWord : Bool) (contextLines : Nat) : List SearchResult :=
  let lines := splitNl content
  searchLoop fp caseSensitive wholeWord query contextLines lines lines 0 0

/-! ## Ignore-file loading (filesystem.ts lines 22-31, 98-116, 197-205,
246-304)

`loadIgnoreMatcher` reads `<root>/.gitignore` and feeds it to the external
`ignore` package, abstracted as a `compile` function; each operation below
also returns the list of roots whose ignore file it loaded, in order. -/

/-- A configured root: its path, its ignore-file content (if the file
exists), and the root filesystem object itself. -/
structure RootDir where
  path : List (List Char)
  gitignore : Option (List Char)
  root : FSEntry

/-- `readdir` on an entry (a file cannot be enumerated; the caller's
`try/catch` turns that failure into an empty listing). -/
def FSEntry.childEntries : FSEntry → List FSEntry
  | .file .. => []
  | .dir _ _ cs => cs

/-- `loadIgnoreMatcher(rootPath)`: compile the ignore file (or nothing) and
record the load. -/
def loadIgnoreMatcher (compile : Option (List Char) → IgnoreMatcher)
    (root : RootDir) : IgnoreMatcher × List (List (List Char)) :=
  (compile root.gitignore, [root.path])

/-- `listFiles(rootPath, options)`: load the matcher, walk, sort. -/
def listFiles (compile : Option (List Char) → IgnoreMatcher) (root : RootDir)
    (opts : ListFilesOptions) : List FileInfo × List (List (List Char)) :=
  let loaded := loadIgnoreMatcher compile root
  (listFilesPure loaded.1 opts root.path root.root.childEntries, loaded.2)

/-- Top-level `getDirectoryTree(rootPath, options, 0, matcher?, rootPath)`:
the matcher argument is loaded only when absent; the recursion (modelled by
`getDirectoryTree` above) always passes it along and never loads. -/
def getDirectoryTreeTop (compile : Option (List Char) → IgnoreMatcher)
    (root : RootDir) (opts : TreeOptions) (matcherArg : Option IgnoreMatcher) :
    DirTreeNode × List (List (List Char)) :=
  let loaded :=
    match matcherArg with
    | some m => (m, [])
    | none => loadIgnoreMatcher compile root
  (getDirectoryTree loaded.1 opts root.root root.path [] 0, loaded.2)

/-- `SearchFilesOptions` with the defaults applied in `searchInFiles`. -/
structure SearchFilesOptions where
  query : List Char
  filePattern : Option (List Char) := none
  caseSensitive : Bool := false
  wholeWord : Bool := false
  contextLines : Nat := 2
  maxDepth : Option Nat := none

/-- Content of the entry reached by the root-relative segment path. -/
def findEntryByRel (entries : List FSEntry) : List (List Char) → Option FSEntry
  | [] => none
  | [nm] => entries.find? (fun e => e.name == nm)
  | nm :: rest =>
    match entries.find? (fun e => e.name == nm) with
    | some (.dir _ _ cs) => findEntryByRel cs rest
    | _ => none

/-- `fs.readFile(path, 'utf-8')` for a path below `root` (a directory or a
missing entry fails; the caller's `try/catch` skips it). -/
def contentAtPath (root : RootDir) (absPath : List (List Char)) :
    Option (List Char) :=
  match findEntryByRel root.root.childEntries (absPath.drop root.path.length) with
  | some (.file _ content _) => some content
  | _ => none

/-- The `for (const file of files)` loop of `searchInDirectory`. -/
def searchFilesLoop (root : RootDir) (o : SearchFilesOptions) :
    List FileInfo → List SearchResult
  | [] => []
  | f :: fs =>
    if f.isDirectory then searchFilesLoop root o fs
    else
      (match contentAtPath root f.path with
        | some c =>
          searchInFile f.path c o.query o.caseSensitive o.wholeWord o.contextLines
        | none => []) ++ searchFilesLoop root o fs

/-- `searchInDirectory(dirPath, ...)`: one `listFiles` (hence one ignore
load), then a per-file scan. -/
def searchInDirectory (compile : Option (List Char) → IgnoreMatcher)
    (root : RootDir) (o : SearchFilesOptions) :
    List SearchResult × List (List (List Char)) :=
  let listed :=
    listFiles compile root
      { pattern := o.filePattern, maxDepth := o.maxDepth.getD 10 }
  (searchFilesLoop root o listed.1, listed.2)

/-- `searchInFiles(rootPaths, options)`: the `for (const rootPath of
rootPaths)` loop. -/
def searchInFiles (compile : Option (List Char) → IgnoreMatcher) :
    List RootDir → SearchFilesOptions → List SearchResult × List (List (List Char))
  | [], _ => ([], [])
  | r :: rs, o =>
    let first := searchInDirectory compile r o
    let rest := searchInFiles compile rs o
    (first.1 ++ rest.1, first.2 ++ rest.2)

/-- One core operation of a process run, for the load-count analysis. -/
inductive FsOp where
  | list (root : RootDir) (opts : ListFilesOptions)
  | tree (root : RootDir) (opts : TreeOptions)
  | search (roots : List RootDir) (opts : SearchFilesOptions)

/-- The roots whose ignore file one operation loads, in order. -/
def opLoads (compile : Option (List Char) → IgnoreMatcher) :
    FsOp → List (List (List Char))
  | .list r o => (listFiles compile r o).2
  | .tree r o => (getDirectoryTreeTop compile r o none).2
  | .search rs o => (searchInFiles compile rs o).2

/-- All ignore-file loads performed by a sequence of operations. -/
def processLoads (compile : Option (List Char) → IgnoreMatcher)
    (ops : List FsOp) : List (List (List Char)) :=
  (ops.map (opLoads compile)).flatten

/-! ## `read_files` tool (readFiles.ts)

The tool works on raw path strings, so its filesystem view is a flat map
from absolute path strings to objects.  `JVal` embeds the untyped JSON
values arriving in the tool input. -/

/-- An untyped JSON value from the tool input. -/
inductive JVal where
  | jstr (s : List Char)
  | jnum (n : Int)
  | jbool (b : Bool)
  | jarr (xs : List JVal)
  | jnull
  deriving Repr

/-- The named fields `parseInput` reads from the input object. -/
structure RawInput where
  path : Option JVal := none
  paths : Option JVal := none
  startLine : Option JVal := none
  endLine : Option JVal := none
  encoding : Option JVal := none
  showLineNumbers : Option JVal := none
  maxFileSize : Option JVal := none

/-- `typeof v === 'string'` projection. -/
def asStr : JVal → Option (List Char)
  | .jstr s => some s
  | _ => none

/-- `typeof v === 'number'` projection on an optional field. -/
def asNum : Option JVal → Option Int
  | some (.jnum n) => some n
  | _ => none

/-- The `validEncodings` list of `isValidEncoding`. -/
def validEncodings : List (List Char) :=
  [chars "ascii", chars "utf8", chars "utf-8", chars "utf16le", chars "ucs2",
    chars "ucs-2", chars "base64", chars "latin1", chars "binary", chars "hex"]

/-- The parsed `ReadFilesInput`. -/
structure ReadFilesInput where
  paths : List Path
  startLine : Option Nat
  endLine : Option Nat
  encoding : List Char
  showLineNumbers : Bool
  maxFileSize : Nat
  deriving Repr

/-- The path-extraction branch of `parseInput`: single `path` string, else
`paths` array filtered to strings, else `paths` string, else an error. -/
def extractPaths (path paths : Option JVal) : Except ToolError (List Path) :=
  match path with
  | some (.jstr s) => .ok [s]
  | _ =>
    match paths with
    | some (.jarr xs) => .ok (xs.filterMap asStr)
    | some (.jstr s) => .ok [s]
    | _ => .error .missingPaths

/-- `parseInput` (readFiles.ts lines 26-57). -/
def parseInput (input : RawInput) : Except ToolError ReadFilesInput :=
  match extractPaths input.path input.paths with
  | .error e => .error e
  | .ok paths =>
    if paths.length = 0 then .error .emptyPaths
    else if paths.length > 10 then .error .tooManyPaths
    else
      .ok
        { paths := paths
          startLine := (asNum input.startLine).map (fun n => (max 1 n).toNat)
          endLine := (asNum input.endLine).map (fun n => (max 1 n).toNat)
          encoding :=
            match input.encoding with
            | some (.jstr s) => if validEncodings.contains s then s else chars "utf-8"
            | _ => chars "utf-8"
          showLineNumbers :=
            match input.showLineNumbers with
            | some (.jbool b) => b
            | _ => true
          maxFileSize :=
            match asNum input.maxFileSize with
            | some n => (max 1024 n).toNat
            | none => 1048576 }

/-- A filesystem object reachable by its absolute path string. -/
inductive FNode where
  | file (content : List Char) (mtime : Nat)
  | dir (mtime : Nat)
  deriving Repr

/-- The flat filesystem view: absolute path string to object. -/
abbrev FlatFS := List (Path × FNode)

/-- Object at a path, if any (`stat` / `access` succeed exactly here). -/
def flatLookup (fs : FlatFS) (p : Path) : Option FNode :=
  (fs.find? (fun q => q.1 == p)).map (·.2)

/-- One observable filesystem action of the tool, for ordering claims. -/
inductive FsEvent where
  | validate (p : Path)
  | statRead (p : Path)
  | contentRead (p : Path)
  deriving DecidableEq, Repr

/-- `isAbsolute(p)` on POSIX. -/
def isAbsolutePath (p : Path) : Bool := p.head? == some sep

/-- The `for (const root of rootPaths)` loop of `resolveFilePath`: try
`normalize(resolve(root, filePath))` within that single root, accept the
first candidate that exists. -/
def resolveLoop (normRes : Path → Path) (fs : FlatFS) (filePath : Path) :
    List Path → Except ToolError Path × List FsEvent
  | [] => (.error .notFound, [])
  | root :: rest =>
    let candidate := normRes (root ++ sep :: filePath)
    match validatePathAccess normRes candidate [root] with
    | .ok withinRoot =>
      if (flatLookup fs withinRoot).isSome then (.ok withinRoot, [.validate candidate])
      else
        let next := resolveLoop normRes fs filePath rest
        (next.1, .validate candidate :: next.2)
    | .error _ =>
      let next := resolveLoop normRes fs filePath rest
      (next.1, .validate candidate :: next.2)

/-- `resolveFilePath(filePath, rootPaths)` (readFiles.ts lines 100-116):
absolute paths go straight to `validatePathAccess`; relative ones try each
root in order. -/
def resolveFilePath (normRes : Path → Path) (fs : FlatFS) (roots : List Path)
    (filePath : Path) : Except ToolError Path × List FsEvent :=
  if isAbsolutePath filePath then
    (validatePathAccess normRes filePath roots, [.validate filePath])
  else
    resolveLoop normRes fs filePath roots

/-- `String(n)` for a line number. -/
def natChars (n : Nat) : List Char := Nat.toDigits 10 n

/-- `addLineNumbers(content, startLine)` (readFiles.ts lines 80-86): each
line of the split content prefixed with its number and `"| "`. -/
def addLineNumbers (content : List Char) (startLine : Nat) : List Char :=
  joinNl ((splitNl content).enum.map (fun p =>
    natChars (startLine + p.1) ++ '|' :: ' ' :: p.2))

/-- `relative(root, p)` in the ancestor case the source reaches after
`p.startsWith(root)` (non-ancestor raw prefixes would produce `..` segments,
which no claim depends on). -/
def stripRoot (root p : Path) : Path :=
  (p.drop root.length).dropWhile (· == sep)

/-- The display-path loop of `readSingleFile`: first root that is a raw
string prefix of the validated path. -/
def relativeDisplay (roots : List Path) (filePath validated : Path) : Path :=
  match roots.find? (fun r => r.isPrefixOf validated) with
  | some r => stripRoot r validated
  | none => filePath

/-- `readSingleFile(filePath, params, rootPaths)` (readFiles.ts lines
117-153): resolve, stat, directory check, size check — all before the
content read — then the ranged read and formatting. -/
def readSingleFile (normRes : Path → Path) (fs : FlatFS) (roots : List Path)
    (params : ReadFilesInput) (filePath : Path) :
    Except ToolError (Path × List Char) × List FsEvent :=
  match resolveFilePath normRes fs roots filePath with
  | (.error e, log) => (.error e, log)
  | (.ok validatedPath, log) =>
    let log := log ++ [.statRead validatedPath]
    match flatLookup fs validatedPath with
    | none => (.error .statFailure, log)
    | some (.dir _) => (.error .isADirectory, log)
    | some (.file content _) =>
      if content.length > params.maxFileSize then
        (.error (.tooLarge content.length params.maxFileSize), log)
      else
        let raw := readFileContent content params.startLine params.endLine
        let formatted :=
          if params.showLineNumbers then addLineNumbers raw (params.startLine.getD 1)
          else raw
        (.ok (relativeDisplay roots filePath validatedPath, formatted),
          log ++ [.contentRead validatedPath])

/-- One entry of the handler's `results` array:
`{path, content}` on success, `{path, error}` on a caught failure. -/
structure FileResult where
  path : Path
  result : Except ToolError (List Char)
  deriving Repr

/-- The per-path `try/catch` body of the handler's loop. -/
def entryResult (normRes : Path → Path) (fs : FlatFS) (roots : List Path)
    (params : ReadFilesInput) (p : Path) : FileResult :=
  match (readSingleFile normRes fs roots params p).1 with
  | .ok pc => { path := pc.1, result := .ok pc.2 }
  | .error e => { path := p, result := .error e }

/-- The events one loop iteration performs. -/
def entryLog (normRes : Path → Path) (fs : FlatFS) (roots : List Path)
    (params : ReadFilesInput) (p : Path) : List FsEvent :=
  (readSingleFile normRes fs roots params p).2

/-- The handler's main loop: every path yields exactly one result entry. -/
def runBatch (normRes : Path → Path) (fs : FlatFS) (roots : List Path)
    (params : ReadFilesInput) :
    Except ToolError (List FileResult) × List FsEvent :=
  (.ok (params.paths.map (entryResult normRes fs roots params)),
    (params.paths.map (entryLog normRes fs roots params)).flatten)

/-- The `read_files` handler (readFiles.ts lines 219-245): parse, check the
line range, then the batch loop. -/
def readFilesHandler (normRes : Path → Path) (fs : FlatFS) (roots : List Path)
    (input : RawInput) : Except ToolError (List FileResult) × List FsEvent :=
  match parseInput input with
  | .error e => (.error e, [])
  | .ok params =>
    match params.startLine, params.endLine with
    | some s, some e =>
      if s > e then (.error .invalidRange, [])
      else runBatch normRes fs roots params
    | _, _ => runBatch normRes fs roots params

/-- Witness filesystem of the over-size scenario: a 2,000,000-byte file and
a small sibling below root `/r`. -/
def oversizeFS : FlatFS :=
  [(chars "/r/big.txt", .file (List.replicate 2000000 'a') 0),
   (chars "/r/ok.txt", .file (chars "hi") 0)]

/-- The parsed parameters of the over-size scenario
(`maxFileSize = 1024`, no line range, no line numbers). -/
def oversizeParams : ReadFilesInput :=
  { paths := [chars "/r/big.txt", chars "/r/ok.txt"], startLine := none,
    endLine := none, encoding := chars "utf-8", showLineNumbers := false,
    maxFileSize := 1024 }

/-- The raw tool input of the over-size scenario. -/
def oversizeInput : RawInput :=
  { paths := some (.jarr [.jstr (chars "/r/big.txt"), .jstr (chars "/r/ok.txt")]),
    showLineNumbers := some (.jbool false),
    maxFileSize := some (.jnum 1024) }

/-! # Theorems -/

/-- `List.isPrefixOf` agrees with the existence of a completing suffix. -/
theorem isPrefixOf_exists {l l' : List Char} :
    l.isPrefixOf l' = true ↔ ∃ t, l' = l ++ t := by
  induction l generalizing l' with
  | nil => simp [List.isPrefixOf]
  | cons c cs ih =>
    cases l' with
    | nil => simp [List.isPrefixOf]
    | cons d ds =>
      simp only [List.isPrefixOf, Bool.and_eq_true, beq_iff_eq, ih, List.cons_append,
        List.cons.injEq]
      constructor
      · rintro ⟨rfl, t, rfl⟩
        exact ⟨t, rfl, rfl⟩
      · rintro ⟨t, rfl, rfl⟩
        exact ⟨rfl, t, rfl⟩

/-- The separator-bounded test of the source loop decides `rootAdmits`. -/
theorem loopCond_iff_rootAdmits (r p : Path) :
    ((r ++ [sep]).isPrefixOf p || p == r) = true ↔ rootAdmits r p := by
  simp only [Bool.or_eq_true, beq_iff_eq, isPrefixOf_exists, rootAdmits]
  constructor
  · rintro (⟨t, rfl⟩ | rfl)
    · exact Or.inr ⟨t, by simp⟩
    · exact Or.inl rfl
  · rintro (rfl | ⟨t, rfl⟩)
    · exact Or.inr rfl
    · exact Or.inl ⟨t, by simp⟩

/-- The root loop either rejects or returns the normalized input unchanged. -/
theorem validateLoop_result (normRes : Path → Path) (normalized : Path)
    (roots : List Path) :
    validateLoop normRes normalized roots = .error .outsideSandbox ∨
      validateLoop normRes normalized roots = .ok normalized := by
  induction roots with
  | nil => exact Or.inl rfl
  | cons root rest ih =>
    by_cases h : ((normRes root ++ [sep]).isPrefixOf normalized ||
        normalized == normRes root) = true
    · exact Or.inr (by simp [validateLoop, h])
    · simpa [validateLoop, h] using ih

/-- The root loop rejects exactly when no root admits the normalized path. -/
theorem validateLoop_error_iff (normRes : Path → Path) (normalized : Path)
    (roots : List Path) :
    validateLoop normRes normalized roots = .error .outsideSandbox ↔
      ∀ root ∈ roots, ¬ rootAdmits (normRes root) normalized := by
  induction roots with
  | nil => simp [validateLoop]
  | cons root rest ih =>
    by_cases h : ((normRes root ++ [sep]).isPrefixOf normalized ||
        normalized == normRes root) = true
    · simp only [validateLoop, h, if_true]
      constructor
      · intro hcontra
        cases hcontra
      · intro hall
        exact absurd ((loopCond_iff_rootAdmits _ _).mp h)
          (hall root (List.mem_cons_self _ _))
    · have hloop : validateLoop normRes normalized (root :: rest) =
          validateLoop normRes normalized rest := by
        simp only [validateLoop]
        rw [if_neg h]
      rw [hloop, ih]
      constructor
      · intro hall r hr
        rcases List.mem_cons.mp hr with rfl | hr'
        · exact fun hadm => h ((loopCond_iff_rootAdmits _ _).mpr hadm)
        · exact hall r hr'
      · intro hall r hr
        exact hall r (List.mem_cons_of_mem _ hr)

/-- C1: `validatePathAccess(P, roots)` fails with `OutsideSandbox` exactly
when the normalized form of `P` neither equals any normalized root nor is a
descendant of one under the path-separator-bounded prefix match; otherwise it
returns the normalized path, and no other outcome is possible. -/
theorem validatePathAccess_correct (normRes : Path → Path) (targetPath : Path)
    (allowedRoots : List Path) :
    (validatePathAccess normRes targetPath allowedRoots = .error .outsideSandbox ↔
      ∀ root ∈ allowedRoots, ¬ rootAdmits (normRes root) (normRes targetPath)) ∧
    (validatePathAccess normRes targetPath allowedRoots = .ok (normRes targetPath) ↔
      ∃ root ∈ allowedRoots, rootAdmits (normRes root) (normRes targetPath)) ∧
    (validatePathAccess normRes targetPath allowedRoots = .error .outsideSandbox ∨
      validatePathAccess normRes targetPath allowedRoots = .ok (normRes targetPath)) := by
  refine ⟨validateLoop_error_iff .., ?_, validateLoop_result ..⟩
  rcases validateLoop_result normRes (normRes targetPath) allowedRoots with h | h
  · rw [validatePathAccess, h]
    have hall := (validateLoop_error_iff normRes (normRes targetPath) allowedRoots).mp h
    simp only [reduceCtorEq, false_iff]
    rintro ⟨r, hr, hadm⟩
    exact hall r hr hadm
  · rw [validatePathAccess, h]
    simp only [Except.ok.injEq, true_iff]
    by_contra hnone
    push_neg at hnone
    have herr : validateLoop normRes (normRes targetPath) allowedRoots =
        .error .outsideSandbox :=
      (validateLoop_error_iff ..).mpr (fun r hr hadm => hnone r hr hadm)
    rw [h] at herr
    cases herr

/-! ### MetadataCache lemmas -/

/-- Deleting a key never lengthens the map. -/
theorem eraseEntry_length_le [DecidableEq K] (k : K)
    (l : List (K × CacheEntry V)) : (eraseEntry k l).length ≤ l.length := by
  induction l with
  | nil => simp [eraseEntry]
  | cons x rest ih =>
    obtain ⟨k', e⟩ := x
    by_cases h : k' = k
    · simp [eraseEntry, h]
    · simp only [eraseEntry, h, if_false, List.length_cons]
      omega

/-- Deleting a present key shortens the map by exactly one. -/
theorem eraseEntry_length_of_found [DecidableEq K] {k : K}
    {l : List (K × CacheEntry V)} {e : CacheEntry V}
    (h : findEntry k l = some e) : (eraseEntry k l).length + 1 = l.length := by
  induction l with
  | nil => simp [findEntry] at h
  | cons x rest ih =>
    obtain ⟨k', e'⟩ := x
    by_cases hk : k' = k
    · simp [eraseEntry, hk]
    · simp only [findEntry, hk, if_false] at h
      simp only [eraseEntry, hk, if_false, List.length_cons]
      have := ih h
      omega

/-- Deleting an absent key is the identity. -/
theorem eraseEntry_of_not_found [DecidableEq K] {k : K}
    {l : List (K × CacheEntry V)} (h : findEntry k l = none) :
    eraseEntry k l = l := by
  induction l with
  | nil => simp [eraseEntry]
  | cons x rest ih =>
    obtain ⟨k', e'⟩ := x
    by_cases hk : k' = k
    · simp [findEntry, hk] at h
    · simp only [findEntry, hk, if_false] at h
      simp [eraseEntry, hk, ih h]

/-- Deleting the head's own key drops exactly the head. -/
theorem eraseEntry_head [DecidableEq K] (x : K × CacheEntry V)
    (t : List (K × CacheEntry V)) : eraseEntry x.1 (x :: t) = t := by
  obtain ⟨k, e⟩ := x
  simp [eraseEntry]

/-- `get` never lengthens the map. -/
theorem get_length_le [DecidableEq K] (c : LRUCache K V) (k : K) (now : Nat) :
    (c.get k now).2.entries.length ≤ c.entries.length := by
  rw [LRUCache.get]
  cases hf : findEntry k c.entries with
  | none => simp
  | some e =>
    by_cases h : now > e.expires
    · simp only [h, if_true]
      exact eraseEntry_length_le ..
    · simp only [h, if_false, List.length_append, List.length_cons,
        List.length_nil]
      have := eraseEntry_length_of_found hf
      omega

/-- `get` leaves capacity and TTL unchanged. -/
theorem get_maxSize [DecidableEq K] (c : LRUCache K V) (k : K) (now : Nat) :
    (c.get k now).2.maxSize = c.maxSize := by
  rw [LRUCache.get]
  cases hf : findEntry k c.entries with
  | none => simp
  | some e =>
    by_cases h : now > e.expires
    · simp [h]
    · simp [h]

/-- `setDelete` never lengthens the map. -/
theorem setDelete_length_le [DecidableEq K] (k : K)
    (l : List (K × CacheEntry V)) : (setDelete k l).length ≤ l.length := by
  rw [setDelete]
  by_cases h : (findEntry k l).isSome
  · simp only [h, if_true]
    exact eraseEntry_length_le ..
  · simp [h]

/-- The eviction step bounds a one-over map back to capacity. -/
theorem setEvict_length [DecidableEq K] (maxSize : Nat)
    (l : List (K × CacheEntry V)) (h : l.length ≤ maxSize + 1) :
    (setEvict maxSize l).length ≤ maxSize := by
  rw [setEvict]
  by_cases hov : l.length > maxSize
  · simp only [hov, if_true]
    cases l with
    | nil => simp at hov
    | cons x t =>
      rw [List.head?_cons]
      show (eraseEntry x.1 (x :: t)).length ≤ maxSize
      rw [eraseEntry_head]
      simp only [List.length_cons] at h
      omega
  · simp only [hov, if_false]
    omega

/-- Eviction does nothing to a map within capacity. -/
theorem setEvict_of_le [DecidableEq K] (maxSize : Nat)
    (l : List (K × CacheEntry V)) (h : ¬ l.length > maxSize) :
    setEvict maxSize l = l := by
  rw [setEvict, if_neg h]

/-- `set` keeps a within-capacity map within capacity. -/
theorem set_length_le [DecidableEq K] (c : LRUCache K V) (k : K) (v : V)
    (now : Nat) (hc : c.entries.length ≤ c.maxSize) :
    (c.set k v now).entries.length ≤ c.maxSize := by
  rw [LRUCache.set]
  refine setEvict_length _ _ ?_
  have := setDelete_length_le k c.entries
  simp only [List.length_append, List.length_cons, List.length_nil]
  omega

/-- `set` leaves capacity and TTL unchanged. -/
theorem set_maxSize [DecidableEq K] (c : LRUCache K V) (k : K) (v : V)
    (now : Nat) : (c.set k v now).maxSize = c.maxSize := rfl

/-- Any operation keeps a within-capacity cache within capacity, without
touching the capacity itself. -/
theorem applyOp_invariant [DecidableEq K] (c : LRUCache K V)
    (op : CacheOp K V) (hc : c.entries.length ≤ c.maxSize) :
    (c.applyOp op).entries.length ≤ (c.applyOp op).maxSize ∧
      (c.applyOp op).maxSize = c.maxSize := by
  cases op with
  | get k now =>
    show (c.get k now).2.entries.length ≤ (c.get k now).2.maxSize ∧
      (c.get k now).2.maxSize = c.maxSize
    refine ⟨?_, get_maxSize ..⟩
    rw [get_maxSize]
    exact le_trans (get_length_le ..) hc
  | set k v now =>
    exact ⟨set_length_le _ _ _ _ hc, rfl⟩
  | clear => exact ⟨by simp [LRUCache.applyOp, LRUCache.clearAll], rfl⟩

/-- Within-capacity is an invariant of whole operation sequences. -/
theorem run_length_le [DecidableEq K] (c : LRUCache K V)
    (ops : List (CacheOp K V)) (hc : c.entries.length ≤ c.maxSize) :
    (c.run ops).entries.length ≤ (c.run ops).maxSize := by
  induction ops generalizing c with
  | nil => exact hc
  | cons op rest ih =>
    exact ih (c.applyOp op) (applyOp_invariant c op hc).1

/-- On overflow, `set` appends the fresh entry and drops the head — the
least-recently-used binding of the iteration order. -/
theorem set_overflow_evicts_head [DecidableEq K] (c : LRUCache K V) (k : K)
    (v : V) (now : Nat) (habsent : findEntry k c.entries = none)
    (hfull : c.entries.length = c.maxSize) :
    (c.set k v now).entries =
      (c.entries ++ [(k, CacheEntry.mk v (now + c.ttl))]).tail := by
  rw [LRUCache.set]
  have hdel : setDelete k c.entries = c.entries := by
    rw [setDelete]
    simp [habsent]
  rw [hdel, setEvict]
  have hov : (c.entries ++ [(k, CacheEntry.mk v (now + c.ttl))]).length >
      c.maxSize := by
    simp only [List.length_append, List.length_cons, List.length_nil]
    omega
  rw [if_pos hov]
  cases hc : c.entries with
  | nil => simp [eraseEntry]
  | cons x t =>
    rw [List.cons_append, List.head?_cons]
    show eraseEntry x.1 (x :: (t ++ [(k, CacheEntry.mk v (now + c.ttl))])) =
      (x :: (t ++ [(k, CacheEntry.mk v (now + c.ttl))])).tail
    rw [eraseEntry_head, List.tail_cons]

/-- Running operations never changes the configured capacity. -/
theorem run_maxSize [DecidableEq K] (c : LRUCache K V)
    (ops : List (CacheOp K V)) : (c.run ops).maxSize = c.maxSize := by
  induction ops generalizing c with
  | nil => rfl
  | cons op rest ih =>
    calc (c.run (op :: rest)).maxSize = ((c.applyOp op).run rest).maxSize := rfl
      _ = (c.applyOp op).maxSize := ih _
      _ = c.maxSize := by
          cases op with
          | get k now => exact get_maxSize ..
          | set k v now => rfl
          | clear => rfl

/-- C3: run from empty, a capacity-`C` cache never holds more than `C`
entries; a `set` of an absent key into a full cache appends the new binding
and evicts exactly the head of the iteration order — the least-recently-used
entry, since every hit of `get` and every `set` moves its key to the back. -/
theorem lruCache_capacity_lru_eviction (K V : Type) [DecidableEq K]
    (capacity ttl : Nat) :
    (∀ ops : List (CacheOp K V),
      ((LRUCache.empty K V capacity ttl).run ops).entries.length ≤ capacity) ∧
    (∀ (c : LRUCache K V) (k : K) (v : V) (now : Nat),
      c.maxSize = capacity → findEntry k c.entries = none →
      c.entries.length = capacity →
      (c.set k v now).entries =
        (c.entries ++ [(k, CacheEntry.mk v (now + c.ttl))]).tail ∧
      (c.set k v now).entries.length = capacity) := by
  constructor
  · intro ops
    have hrun := run_length_le (LRUCache.empty K V capacity ttl) ops (by simp [LRUCache.empty])
    have hmax : ((LRUCache.empty K V capacity ttl).run ops).maxSize = capacity :=
      run_maxSize ..
    rw [hmax] at hrun
    exact hrun
  · intro c k v now hcap habsent hfull
    have h1 := set_overflow_evicts_head c k v now habsent (by rw [hcap]; exact hfull)
    refine ⟨h1, ?_⟩
    rw [h1]
    simp only [List.length_tail, List.length_append, List.length_cons,
      List.length_nil]
    omega

/-- C3 witness: a three-`set` run on capacity 2 stays within 2 entries, and
a `set` into the full cache `[(1,·),(2,·)]` evicts exactly key 1 (the LRU). -/
theorem lruCache_capacity_lru_eviction_witness :
    (((LRUCache.empty Nat Nat 2 5).run
        [CacheOp.set 1 10 0, CacheOp.set 2 20 0, CacheOp.set 3 30 0]).entries.length ≤ 2) ∧
    ((⟨2, 5, [(1, CacheEntry.mk 10 5), (2, CacheEntry.mk 20 5)]⟩ :
        LRUCache Nat Nat).set 3 30 1).entries =
      ([(1, CacheEntry.mk 10 5), (2, CacheEntry.mk 20 5)] ++
        [(3, CacheEntry.mk 30 (1 + 5))]).tail ∧
    ((⟨2, 5, [(1, CacheEntry.mk 10 5), (2, CacheEntry.mk 20 5)]⟩ :
        LRUCache Nat Nat).set 3 30 1).entries.length = 2 := by
  have h := lruCache_capacity_lru_eviction Nat Nat 2 5
  have h2 := h.2 ⟨2, 5, [(1, CacheEntry.mk 10 5), (2, CacheEntry.mk 20 5)]⟩ 3 30 1
    rfl (by decide) (by decide)
  exact ⟨h.1 _, h2.1, h2.2⟩

/-- A key absent from the key list is not found. -/
theorem findEntry_eq_none_of_not_mem [DecidableEq K] {k : K}
    {l : List (K × CacheEntry V)} (h : k ∉ l.map Prod.fst) :
    findEntry k l = none := by
  induction l with
  | nil => rfl
  | cons x rest ih =>
    obtain ⟨k', e⟩ := x
    simp only [List.map_cons, List.mem_cons, not_or] at h
    have hne : ¬ (k' = k) := fun he => h.1 he.symm
    simp only [findEntry, if_neg hne]
    exact ih h.2

/-- With duplicate-free keys, deleting a key makes it unfindable. -/
theorem findEntry_erase_self [DecidableEq K] {k : K}
    {l : List (K × CacheEntry V)} (h : (l.map Prod.fst).Nodup) :
    findEntry k (eraseEntry k l) = none := by
  induction l with
  | nil => rfl
  | cons x rest ih =>
    obtain ⟨k', e⟩ := x
    simp only [List.map_cons, List.nodup_cons] at h
    by_cases hk : k' = k
    · subst hk
      simp only [eraseEntry, if_pos rfl]
      exact findEntry_eq_none_of_not_mem h.1
    · simp only [eraseEntry, if_neg hk, findEntry, if_neg hk]
      exact ih h.2

/-- C4: a `get` strictly after the entry's expiry returns absent and deletes
the entry, for any cache state (any capacity, any LRU position). -/
theorem lruCache_get_expired (K V : Type) [DecidableEq K] (c : LRUCache K V)
    (k : K) (now : Nat) (e : CacheEntry V)
    (hfind : findEntry k c.entries = some e)
    (hnodup : (c.entries.map Prod.fst).Nodup)
    (hexp : now > e.expires) :
    (c.get k now).1 = none ∧
      (c.get k now).2.entries = eraseEntry k c.entries ∧
      findEntry k (c.get k now).2.entries = none := by
  have hget : c.get k now = (none, { c with entries := eraseEntry k c.entries }) := by
    rw [LRUCache.get, hfind]
    simp only [if_pos hexp]
  rw [hget]
  exact ⟨rfl, rfl, findEntry_erase_self hnodup⟩

/-- C4 witness: key 1 set to expire at 3 is absent and removed by a `get`
at time 4 in a capacity-10 cache. -/
theorem lruCache_get_expired_witness :
    (4 > 3) ∧
    ((⟨10, 5, [(1, CacheEntry.mk 42 3)]⟩ : LRUCache Nat Nat).get 1 4).1 = none ∧
    ((⟨10, 5, [(1, CacheEntry.mk 42 3)]⟩ : LRUCache Nat Nat).get 1 4).2.entries =
      eraseEntry 1 [(1, CacheEntry.mk 42 3)] ∧
    findEntry 1 ((⟨10, 5, [(1, CacheEntry.mk 42 3)]⟩ :
      LRUCache Nat Nat).get 1 4).2.entries = none := by
  have h := lruCache_get_expired Nat Nat ⟨10, 5, [(1, CacheEntry.mk 42 3)]⟩ 1 4
    (CacheEntry.mk 42 3) (by decide) (by decide) (by decide)
  exact ⟨by decide, h.1, h.2.1, h.2.2⟩

/-! ### RangeReader lemmas -/

/-- Splitting a newline-free line yields just that line. -/
theorem splitNl_no_newline {l : List Char} (h : '\n' ∉ l) : splitNl l = [l] := by
  induction l with
  | nil => rfl
  | cons c cs ih =>
    simp only [List.mem_cons, not_or] at h
    have hc : ¬ (c = '\n') := fun he => h.1 he.symm
    rw [splitNl, if_neg hc, ih h.2]

/-- Splitting after a newline-free first line peels it off. -/
theorem splitNl_append_newline {l : List Char} (t : List Char) (h : '\n' ∉ l) :
    splitNl (l ++ '\n' :: t) = l :: splitNl t := by
  induction l with
  | nil =>
    rw [List.nil_append, splitNl, if_pos rfl]
  | cons c cs ih =>
    simp only [List.mem_cons, not_or] at h
    have hc : ¬ (c = '\n') := fun he => h.1 he.symm
    rw [List.cons_append, splitNl, if_neg hc, ih h.2]

/-- `split('\n')` inverts `join('\n')` on nonempty, newline-free line lists. -/
theorem splitNl_joinNl {ls : List (List Char)} (h : ∀ l ∈ ls, '\n' ∉ l)
    (hne : ls ≠ []) : splitNl (joinNl ls) = ls := by
  induction ls with
  | nil => exact absurd rfl hne
  | cons l rest ih =>
    cases rest with
    | nil =>
      rw [joinNl]
      exact splitNl_no_newline (h l (List.mem_cons_self _ _))
    | cons l2 rest2 =>
      rw [joinNl, splitNl_append_newline _ (h l (List.mem_cons_self _ _)),
        ih (fun x hx => h x (List.mem_cons_of_mem _ hx)) (by simp)]
      simp

/-- C6: on any nonempty file whose lines `ls` are newline-free, the ranged
read returns the joined `[max(0,startLine-1), min(totalLines, endLine ??
totalLines))` slice of `ls`; without a range it returns the whole content;
and `startLine=2, endLine=3` yields exactly lines 2 and 3 joined by the
separator, whatever the total length. -/
theorem readFileContent_range (ls : List (List Char))
    (hnl : ∀ l ∈ ls, '\n' ∉ l) (hne : ls ≠ []) :
    (readFileContent (joinNl ls) none none = joinNl ls) ∧
    (∀ sl el : Option Nat, sl ≠ none ∨ el ≠ none →
      readFileContent (joinNl ls) sl el =
        joinNl ((ls.drop ((sl.getD 1) - 1)).take
          (min ls.length (el.getD ls.length) - ((sl.getD 1) - 1)))) ∧
    (∀ l1 l2 l3 rest, ls = l1 :: l2 :: l3 :: rest →
      readFileContent (joinNl ls) (some 2) (some 3) = l2 ++ '\n' :: l3) := by
  have hsplit := splitNl_joinNl hnl hne
  have hform : ∀ sl el : Option Nat, sl ≠ none ∨ el ≠ none →
      readFileContent (joinNl ls) sl el =
        joinNl ((ls.drop ((sl.getD 1) - 1)).take
          (min ls.length (el.getD ls.length) - ((sl.getD 1) - 1))) := by
    intro sl el hor
    match sl, el with
    | none, none => rcases hor with hc | hc <;> exact absurd rfl hc
    | some s, none =>
      rw [readFileContent, hsplit]
      intro hcon _
      exact Option.noConfusion hcon
    | none, some e =>
      rw [readFileContent, hsplit]
      intro _ hcon
      exact Option.noConfusion hcon
    | some s, some e =>
      rw [readFileContent, hsplit]
      intro hcon _
      exact Option.noConfusion hcon
  refine ⟨rfl, hform, ?_⟩
  intro l1 l2 l3 rest hls
  subst hls
  rw [hform (some 2) (some 3) (Or.inl (by simp))]
  simp only [Option.getD_some]
  have hmin : min (l1 :: l2 :: l3 :: rest).length 3 = 3 := by
    simp only [List.length_cons]
    omega
  rw [hmin]
  rfl

/-- C6 witness: on the four-line file `a\nb\nc\nd`, lines 2-3 come back as
`b\nc`, and the no-range read returns the whole content. -/
theorem readFileContent_range_witness :
    (∀ l ∈ [chars "a", chars "b", chars "c", chars "d"], '\n' ∉ l) ∧
    readFileContent (joinNl [chars "a", chars "b", chars "c", chars "d"])
      (some 2) (some 3) = chars "b" ++ '\n' :: chars "c" ∧
    readFileContent (joinNl [chars "a", chars "b", chars "c", chars "d"])
      none none = joinNl [chars "a", chars "b", chars "c", chars "d"] := by
  have h := readFileContent_range [chars "a", chars "b", chars "c", chars "d"]
    (by decide) (by decide)
  exact ⟨by decide, h.2.2 (chars "a") (chars "b") (chars "c") [chars "d"] rfl, h.1⟩

/-! ### TextSearchEngine: the `'g'`-flag `lastIndex` defect -/

unseal findMatchFrom in
/-- C2: the file `foo\nfoo` splits into two lines that both equal the query
`foo`, and a fresh `test` of the compiled pattern on that line content
matches (moving `lastIndex` to 3) — yet `searchInFile` reports a match only
on line 1.  The always-set `'g'` flag makes `regex.test` resume from
`lastIndex = 3` on line 2, find nothing, and silently reset, so the second
of two consecutive matching lines is dropped, contradicting "every line
whose content matches the pattern produces exactly one SearchMatch". -/
theorem searchInFile_gflag_skips_consecutive :
    splitNl (chars "foo\nfoo") = [chars "foo", chars "foo"] ∧
    regexTestG false false (chars "foo") 0 (chars "foo") = (true, 3) ∧
    (searchInFile [] (chars "foo\nfoo") (chars "foo") false false 0).map
      (fun r => r.line) = [1] :=
  ⟨by decide, by decide, by decide⟩

/-! ### IgnoreMatcher loading: no per-process memoization -/

/-- C7 counterexample: two `listFiles` calls over one root read that root's
ignore file twice — `loadIgnoreMatcher` keeps no per-root memo — so "loaded
and compiled at most once per process" fails. -/
theorem ignoreLoad_not_memoized :
    ¬ (∀ (compile : Option (List Char) → IgnoreMatcher) (ops : List FsOp)
        (rp : List (List Char)),
        (processLoads compile ops).count rp ≤ 1) := by
  intro h
  have h2 := h (fun _ _ => false)
    [FsOp.list ⟨[chars "r"], none, .dir (chars "r") 0 []⟩ {},
     FsOp.list ⟨[chars "r"], none, .dir (chars "r") 0 []⟩ {}] [chars "r"]
  have hc : (processLoads (fun _ _ => false)
      [FsOp.list ⟨[chars "r"], none, .dir (chars "r") 0 []⟩ {},
       FsOp.list ⟨[chars "r"], none, .dir (chars "r") 0 []⟩ {}]).count
      [chars "r"] = 2 := by
    rfl
  rw [hc] at h2
  omega

/-- C7 amended: each `listFiles` call and each top-level tree build loads
the root's ignore file exactly once, a search loads it once per root — the
recursive tree calls, receiving the matcher, load nothing — and separate
invocations re-read it; there is no per-process memo (and no clear API). -/
theorem ignoreLoad_once_per_invocation
    (compile : Option (List Char) → IgnoreMatcher) (root : RootDir)
    (lopts : ListFilesOptions) (topts : TreeOptions) (m : IgnoreMatcher)
    (roots : List RootDir) (sopts : SearchFilesOptions) :
    (listFiles compile root lopts).2 = [root.path] ∧
    (getDirectoryTreeTop compile root topts none).2 = [root.path] ∧
    (getDirectoryTreeTop compile root topts (some m)).2 = [] ∧
    (searchInFiles compile roots sopts).2 = roots.map RootDir.path := by
  refine ⟨rfl, rfl, rfl, ?_⟩
  induction roots with
  | nil => rfl
  | cons r rs ih =>
    simp only [searchInFiles, searchInDirectory, listFiles, loadIgnoreMatcher,
      List.map_cons]
    rw [ih]
    rfl

/-! ### Glob semantics of `matchesPattern` -/

/-- `.*` may match nothing. -/
theorem gmatch_star_of {ts : List GlobTok} {u : List Char}
    (h : gmatch ts u = true) : gmatch (.anyStar :: ts) u = true := by
  cases u with
  | nil => simpa [gmatch] using h
  | cons x xs => simp [gmatch, h]

/-- Prefix matching is whole-string matching of some leading split. -/
theorem gmatchPre_iff (ts : List GlobTok) (s : List Char) :
    gmatchPre ts s = true ↔ ∃ u v, s = u ++ v ∧ gmatch ts u = true := by
  induction ts, s using gmatchPre.induct
  next s =>
    simp only [gmatchPre]
    exact iff_of_true trivial ⟨[], s, rfl, by simp [gmatch]⟩
  next c tail =>
    refine iff_of_false (by simp [gmatchPre]) ?_
    rintro ⟨u, v, he, hm⟩
    rcases List.append_eq_nil.mp he.symm with ⟨rfl, rfl⟩
    simp [gmatch] at hm
  next c ts' d ds ih =>
    simp only [gmatchPre, Bool.and_eq_true]
    rw [ih]
    constructor
    · rintro ⟨hc, u, v, rfl, hm⟩
      exact ⟨d :: u, v, rfl, by simp [gmatch, hc, hm]⟩
    · rintro ⟨u, v, he, hm⟩
      cases u with
      | nil => simp [gmatch] at hm
      | cons x u' =>
        rw [List.cons_append] at he
        injection he with h1 h2
        subst h1
        simp only [gmatch, Bool.and_eq_true] at hm
        exact ⟨hm.1, u', v, h2, hm.2⟩
  next tail =>
    refine iff_of_false (by simp [gmatchPre]) ?_
    rintro ⟨u, v, he, hm⟩
    rcases List.append_eq_nil.mp he.symm with ⟨rfl, rfl⟩
    simp [gmatch] at hm
  next ts' hd ds ih =>
    simp only [gmatchPre]
    rw [ih]
    constructor
    · rintro ⟨u, v, rfl, hm⟩
      exact ⟨hd :: u, v, rfl, by simp [gmatch, hm]⟩
    · rintro ⟨u, v, he, hm⟩
      cases u with
      | nil => simp [gmatch] at hm
      | cons x u' =>
        rw [List.cons_append] at he
        injection he with h1 h2
        simp only [gmatch] at hm
        exact ⟨u', v, h2, hm⟩
  next ts' ih =>
    simp only [gmatchPre]
    rw [ih]
    constructor
    · rintro ⟨u, v, he, hm⟩
      rcases List.append_eq_nil.mp he.symm with ⟨rfl, rfl⟩
      exact ⟨[], [], rfl, gmatch_star_of hm⟩
    · rintro ⟨u, v, he, hm⟩
      rcases List.append_eq_nil.mp he.symm with ⟨rfl, rfl⟩
      exact ⟨[], [], rfl, by simpa [gmatch] using hm⟩
  next ts' d ds ih1 ih2 =>
    simp only [gmatchPre, Bool.or_eq_true]
    rw [ih1, ih2]
    constructor
    · rintro (⟨u, v, he, hm⟩ | ⟨u, v, he, hm⟩)
      · exact ⟨u, v, he, gmatch_star_of hm⟩
      · exact ⟨d :: u, v, by rw [List.cons_append, he], by simp [gmatch, hm]⟩
    · rintro ⟨u, v, he, hm⟩
      cases u with
      | nil =>
        left
        exact ⟨[], d :: ds, rfl, by simpa [gmatch] using hm⟩
      | cons x u' =>
        rw [List.cons_append] at he
        injection he with h1 h2
        subst h1
        simp only [gmatch, Bool.or_eq_true] at hm
        rcases hm with hm | hm
        · left
          exact ⟨d :: u', v, by rw [List.cons_append, h2], hm⟩
        · right
          exact ⟨u', v, h2, hm⟩

/-- The unanchored test succeeds exactly on some suffix's prefix. -/
theorem regexSearch_iff (ts : List GlobTok) (s : List Char) :
    regexSearch ts s = true ↔ ∃ u v, s = u ++ v ∧ gmatchPre ts v = true := by
  induction s with
  | nil =>
    simp only [regexSearch, Bool.or_eq_true]
    constructor
    · rintro (h | h)
      · exact ⟨[], [], rfl, h⟩
      · cases h
    · rintro ⟨u, v, he, hm⟩
      rcases List.append_eq_nil.mp he.symm with ⟨rfl, rfl⟩
      exact Or.inl hm
  | cons x xs ih =>
    simp only [regexSearch, Bool.or_eq_true]
    rw [ih]
    constructor
    · rintro (h | ⟨u, v, he, hm⟩)
      · exact ⟨[], x :: xs, rfl, h⟩
      · exact ⟨x :: u, v, by rw [List.cons_append, he], hm⟩
    · rintro ⟨u, v, he, hm⟩
      cases u with
      | nil =>
        rw [List.nil_append] at he
        exact Or.inl (he ▸ hm)
      | cons y u' =>
        rw [List.cons_append] at he
        injection he with h1 h2
        exact Or.inr ⟨u', v, h2, hm⟩

/-- `matchesPattern` is a substring glob match: some slice of the file name
is matched whole by the compiled pattern. -/
theorem matchesPattern_iff_substring (nm pat : List Char) :
    matchesPattern nm pat = true ↔
      ∃ pre mid post, nm = pre ++ mid ++ post ∧
        globMatchesWholeName pat mid = true := by
  rw [matchesPattern, regexSearch_iff]
  constructor
  · rintro ⟨u, v, rfl, hv⟩
    rcases (gmatchPre_iff _ _).mp hv with ⟨mid, post, rfl, hm⟩
    exact ⟨u, mid, post, by rw [List.append_assoc], hm⟩
  · rintro ⟨pre, mid, post, he, hm⟩
    exact ⟨pre, mid ++ post, by rw [he, List.append_assoc],
      (gmatchPre_iff _ _).mpr ⟨mid, post, rfl, hm⟩⟩

/-- The `namePattern` filter of the walk loop: running with a pattern equals
running without one and keeping directories plus pattern-matching names. -/
theorem walkList_pattern_filter (matcher : IgnoreMatcher)
    (recursive includeHidden : Bool) (maxDepth : Nat) (pat : List Char) :
    ∀ absPath relPath depth entries,
      walkList matcher ⟨recursive, maxDepth, includeHidden, some pat⟩
          absPath relPath depth entries =
        (walkList matcher ⟨recursive, maxDepth, includeHidden, none⟩
            absPath relPath depth entries).filter
          (fun i => i.isDirectory || patternKeeps (some pat) i.name) := by
  refine walkList.induct matcher ⟨recursive, maxDepth, includeHidden, some pat⟩
    (fun a r d es =>
      walkDirectory matcher ⟨recursive, maxDepth, includeHidden, some pat⟩ a r d es =
        (walkDirectory matcher ⟨recursive, maxDepth, includeHidden, none⟩ a r d es).filter
          (fun i => i.isDirectory || patternKeeps (some pat) i.name))
    (fun a r d es =>
      walkList matcher ⟨recursive, maxDepth, includeHidden, some pat⟩ a r d es =
        (walkList matcher ⟨recursive, maxDepth, includeHidden, none⟩ a r d es).filter
          (fun i => i.isDirectory || patternKeeps (some pat) i.name))
    ?_ ?_ ?_ ?_ ?_ ?_ ?_ ?_
  · intro a r d es hguard
    rw [walkDirectory, if_pos hguard, walkDirectory, if_pos hguard]
    rfl
  · intro a r d es hguard h2
    rw [walkDirectory, if_neg hguard, walkDirectory, if_neg hguard]
    exact h2
  · intro a r d
    rw [walkList, walkList]
    rfl
  · intro a r d e rest nm hhid ih
    rw [walkList, walkList, if_pos hhid, if_pos hhid]
    exact ih
  · intro a r d e rest nm hhid fullRel hig ih
    rw [walkList, walkList, if_neg hhid, if_neg hhid, if_pos hig, if_pos hig]
    exact ih
  · intro a r d rest nm mtime children nm1 hhid fullAbs fullRel hig ihdir ihrest
    rw [walkList, walkList, if_neg hhid, if_neg hhid, if_neg hig, if_neg hig]
    show (fileInfoOf (FSEntry.dir nm mtime children) fullAbs ::
        (if recursive then
          walkDirectory matcher ⟨recursive, maxDepth, includeHidden, some pat⟩
            fullAbs fullRel (d + 1) children
        else [])) ++
        walkList matcher ⟨recursive, maxDepth, includeHidden, some pat⟩ a r d rest =
      List.filter _
        ((fileInfoOf (FSEntry.dir nm mtime children) fullAbs ::
          (if recursive then
            walkDirectory matcher ⟨recursive, maxDepth, includeHidden, none⟩
              fullAbs fullRel (d + 1) children
          else [])) ++
          walkList matcher ⟨recursive, maxDepth, includeHidden, none⟩ a r d rest)
    rw [List.cons_append, List.filter_append, List.filter_cons]
    have hinfo : ((fileInfoOf (FSEntry.dir nm mtime children) fullAbs).isDirectory ||
        patternKeeps (some pat) (fileInfoOf (FSEntry.dir nm mtime children) fullAbs).name)
        = true := rfl
    rw [hinfo, if_pos rfl, List.cons_append, ihrest]
    cases recursive with
    | false => rfl
    | true =>
      rw [if_pos rfl, if_pos rfl, ihdir]
  · intro a r d rest nm content mtime nm1 hhid fullRel hig hkeep ihrest
    rw [walkList, walkList, if_neg hhid, if_neg hhid, if_neg hig, if_neg hig]
    show (if patternKeeps (some pat) (FSEntry.file nm content mtime).name then
        fileInfoOf (FSEntry.file nm content mtime) (a ++ [(FSEntry.file nm content mtime).name]) ::
          walkList matcher ⟨recursive, maxDepth, includeHidden, some pat⟩ a r d rest
      else walkList matcher ⟨recursive, maxDepth, includeHidden, some pat⟩ a r d rest) =
      List.filter (fun i => i.isDirectory || patternKeeps (some pat) i.name)
        (if patternKeeps none (FSEntry.file nm content mtime).name then
          fileInfoOf (FSEntry.file nm content mtime)
              (a ++ [(FSEntry.file nm content mtime).name]) ::
            walkList matcher ⟨recursive, maxDepth, includeHidden, none⟩ a r d rest
        else walkList matcher ⟨recursive, maxDepth, includeHidden, none⟩ a r d rest)
    rw [if_pos hkeep, if_pos (show patternKeeps none (FSEntry.file nm content mtime).name = true
      from rfl), List.filter_cons]
    have hinfo : ((fileInfoOf (FSEntry.file nm content mtime)
        (a ++ [(FSEntry.file nm content mtime).name])).isDirectory ||
        patternKeeps (some pat) (fileInfoOf (FSEntry.file nm content mtime)
          (a ++ [(FSEntry.file nm content mtime).name])).name) = true := by
      show (false || patternKeeps (some pat) nm) = true
      rw [Bool.false_or]
      exact hkeep
    rw [hinfo, if_pos rfl, ihrest]
  · intro a r d rest nm content mtime nm1 hhid fullRel hig hskip ihrest
    rw [walkList, walkList, if_neg hhid, if_neg hhid, if_neg hig, if_neg hig]
    show (if patternKeeps (some pat) (FSEntry.file nm content mtime).name then
        fileInfoOf (FSEntry.file nm content mtime) (a ++ [(FSEntry.file nm content mtime).name]) ::
          walkList matcher ⟨recursive, maxDepth, includeHidden, some pat⟩ a r d rest
      else walkList matcher ⟨recursive, maxDepth, includeHidden, some pat⟩ a r d rest) =
      List.filter (fun i => i.isDirectory || patternKeeps (some pat) i.name)
        (if patternKeeps none (FSEntry.file nm content mtime).name then
          fileInfoOf (FSEntry.file nm content mtime)
              (a ++ [(FSEntry.file nm content mtime).name]) ::
            walkList matcher ⟨recursive, maxDepth, includeHidden, none⟩ a r d rest
        else walkList matcher ⟨recursive, maxDepth, includeHidden, none⟩ a r d rest)
    rw [if_neg hskip,
      if_pos (show patternKeeps none (FSEntry.file nm content mtime).name = true from rfl),
      List.filter_cons]
    have hinfo : ((fileInfoOf (FSEntry.file nm content mtime)
        (a ++ [(FSEntry.file nm content mtime).name])).isDirectory ||
        patternKeeps (some pat) (fileInfoOf (FSEntry.file nm content mtime)
          (a ++ [(FSEntry.file nm content mtime).name])).name) = false := by
      show (false || patternKeeps (some pat) nm) = false
      rw [Bool.false_or]
      exact Bool.not_eq_true _ ▸ hskip
    rw [hinfo, if_neg (by simp), ihrest]

/-- The filter equation at the `walkDirectory` entry point. -/
theorem walkDirectory_pattern_filter (matcher : IgnoreMatcher)
    (recursive includeHidden : Bool) (maxDepth : Nat) (pat : List Char)
    (absPath relPath : List (List Char)) (depth : Nat) (entries : List FSEntry) :
    walkDirectory matcher ⟨recursive, maxDepth, includeHidden, some pat⟩
        absPath relPath depth entries =
      (walkDirectory matcher ⟨recursive, maxDepth, includeHidden, none⟩
          absPath relPath depth entries).filter
        (fun i => i.isDirectory || patternKeeps (some pat) i.name) := by
  by_cases h : depth > maxDepth
  · rw [walkDirectory, if_pos h, walkDirectory, if_pos h]
    rfl
  · rw [walkDirectory, if_neg h, walkDirectory, if_neg h]
    exact walkList_pattern_filter matcher recursive includeHidden maxDepth pat
      absPath relPath depth entries

/-- C8 amended, on the domain where the compiled pattern is a plain glob:
for a `namePattern` built only from the rewritten `.` `*` `?` and ASCII
characters with no special regex meaning, and a plain ASCII file name,
the walk keeps a non-directory entry exactly when some *substring* of its
name is matched whole by the pattern read as a simple case-insensitive
glob — an unanchored search, not a whole-name match (so `*.js` admits
`a.jsx`) — while directories are never filtered by the pattern and are
always traversed: the patterned walk equals the unpatterned walk filtered
to directories plus matching file names.  Patterns containing the
remaining regex metacharacters reach `new RegExp` unescaped and are
outside this statement's scope. -/
theorem namePattern_substring_filter (matcher : IgnoreMatcher)
    (recursive includeHidden : Bool) (maxDepth : Nat) (pat : List Char)
    (absPath relPath : List (List Char)) (depth : Nat) (entries : List FSEntry)
    (nm : List Char) (_hpat : globFaithfulPattern pat = true)
    (_hnm : plainAsciiName nm = true) :
    (walkDirectory matcher ⟨recursive, maxDepth, includeHidden, some pat⟩
        absPath relPath depth entries =
      (walkDirectory matcher ⟨recursive, maxDepth, includeHidden, none⟩
          absPath relPath depth entries).filter
        (fun i => i.isDirectory || patternKeeps (some pat) i.name)) ∧
    (matchesPattern nm pat = true ↔
      ∃ pre mid post, nm = pre ++ mid ++ post ∧
        globMatchesWholeName pat mid = true) :=
  ⟨walkDirectory_pattern_filter .., matchesPattern_iff_substring ..⟩

/-- C8 witness: `*.js` and `a.jsx` are in the faithful domain; the filter
equation holds at a one-file listing and the substring characterization
applies to the name. -/
theorem namePattern_substring_filter_witness :
    globFaithfulPattern (chars "*.js") = true ∧
    plainAsciiName (chars "a.jsx") = true ∧
    (walkDirectory (fun _ => false) ⟨true, 10, false, some (chars "*.js")⟩ [] [] 0
        [.file (chars "a.jsx") [] 0] =
      (walkDirectory (fun _ => false) ⟨true, 10, false, none⟩ [] [] 0
          [.file (chars "a.jsx") [] 0]).filter
        (fun i => i.isDirectory || patternKeeps (some (chars "*.js")) i.name)) ∧
    (matchesPattern (chars "a.jsx") (chars "*.js") = true ↔
      ∃ pre mid post, chars "a.jsx" = pre ++ mid ++ post ∧
        globMatchesWholeName (chars "*.js") mid = true) := by
  have h := namePattern_substring_filter (fun _ => false) true false 10
    (chars "*.js") [] [] 0 [.file (chars "a.jsx") [] 0] (chars "a.jsx")
    (by decide) (by decide)
  exact ⟨by decide, by decide, h.1, h.2⟩

set_option maxRecDepth 4096 in
unseal gmatch gmatchPre walkDirectory walkList in
/-- C8 counterexample: with `namePattern = "*.js"` the walk includes the
file `a.jsx`, although the glob does not match that whole name —
`matchesPattern` accepts on a substring (`a.js` inside `a.jsx`), refuting
"matches the pattern ... over the whole name". -/
theorem namePattern_not_whole_name :
    (walkDirectory (fun _ => false) ⟨true, 10, false, some (chars "*.js")⟩ [] [] 0
        [.file (chars "a.jsx") [] 0]).map (fun i => i.name) = [chars "a.jsx"] ∧
    globMatchesWholeName (chars "*.js") (chars "a.jsx") = false :=
  ⟨by decide, by decide⟩

/-! ### Ignore pruning -/

/-- Every entry produced by the walk loop lies strictly below the walked
directory, and the matcher rejects no prefix of its path relative to the
walk base — in particular no output path passes through an ignored
directory. -/
theorem walkList_unignored (matcher : IgnoreMatcher) (opts : ListFilesOptions) :
    ∀ absPath relPath depth entries,
      ∀ info ∈ walkList matcher opts absPath relPath depth entries,
        ∃ suf, suf ≠ [] ∧ info.path = absPath ++ suf ∧
          ∀ k, 0 < k → k ≤ suf.length → matcher (relPath ++ suf.take k) = false := by
  refine walkList.induct matcher opts
    (fun a r d es =>
      ∀ info ∈ walkDirectory matcher opts a r d es,
        ∃ suf, suf ≠ [] ∧ info.path = a ++ suf ∧
          ∀ k, 0 < k → k ≤ suf.length → matcher (r ++ suf.take k) = false)
    (fun a r d es =>
      ∀ info ∈ walkList matcher opts a r d es,
        ∃ suf, suf ≠ [] ∧ info.path = a ++ suf ∧
          ∀ k, 0 < k → k ≤ suf.length → matcher (r ++ suf.take k) = false)
    ?_ ?_ ?_ ?_ ?_ ?_ ?_ ?_
  · intro a r d es hguard info hinfo
    rw [walkDirectory, if_pos hguard] at hinfo
    cases hinfo
  · intro a r d es hguard h2 info hinfo
    rw [walkDirectory, if_neg hguard] at hinfo
    exact h2 info hinfo
  · intro a r d info hinfo
    rw [walkList] at hinfo
    cases hinfo
  · intro a r d e rest nm hhid ih info hinfo
    rw [walkList, if_pos hhid] at hinfo
    exact ih info hinfo
  · intro a r d e rest nm hhid fullRel hig ih info hinfo
    rw [walkList, if_neg hhid, if_pos hig] at hinfo
    exact ih info hinfo
  · intro a r d rest nm mtime children nm1 hhid fullAbs fullRel hig ihdir ihrest info hinfo
    rw [walkList, if_neg hhid, if_neg hig] at hinfo
    have hinfo' : info ∈ (fileInfoOf (FSEntry.dir nm mtime children)
        (a ++ [(FSEntry.dir nm mtime children).name]) ::
        (if opts.recursive then
          walkDirectory matcher opts (a ++ [(FSEntry.dir nm mtime children).name])
            (r ++ [(FSEntry.dir nm mtime children).name]) (d + 1) children
        else [])) ++ walkList matcher opts a r d rest := hinfo
    rw [List.cons_append] at hinfo'
    rcases List.mem_cons.mp hinfo' with rfl | hmem
    · refine ⟨[(FSEntry.dir nm mtime children).name], by simp, rfl, ?_⟩
      intro k hk0 hk1
      have hk : k = 1 := by
        simp only [List.length_cons, List.length_nil] at hk1
        omega
      subst hk
      show matcher (r ++ [(FSEntry.dir nm mtime children).name]) = false
      exact Bool.not_eq_true _ ▸ hig
    · rcases List.mem_append.mp hmem with hmem1 | hmem2
      · by_cases hrec : opts.recursive
        · rw [if_pos hrec] at hmem1
          rcases ihdir info hmem1 with ⟨suf', hne', hpath', hprop'⟩
          refine ⟨(FSEntry.dir nm mtime children).name :: suf', by simp, ?_, ?_⟩
          · rw [hpath', List.append_assoc]
            rfl
          · intro k hk0 hklen
            obtain ⟨j, rfl⟩ : ∃ j, k = j + 1 := ⟨k - 1, by omega⟩
            rw [List.take_succ_cons, List.append_cons]
            rcases Nat.eq_zero_or_pos j with rfl | hj
            · rw [List.take_zero, List.append_nil]
              exact Bool.not_eq_true _ ▸ hig
            · refine hprop' j hj ?_
              simp only [List.length_cons] at hklen
              omega
        · rw [if_neg hrec] at hmem1
          cases hmem1
      · exact ihrest info hmem2
  · intro a r d rest nm content mtime nm1 hhid fullRel hig hkeep ihrest info hinfo
    rw [walkList, if_neg hhid, if_neg hig] at hinfo
    have hinfo' : info ∈ (if patternKeeps opts.pattern (FSEntry.file nm content mtime).name then
        fileInfoOf (FSEntry.file nm content mtime)
            (a ++ [(FSEntry.file nm content mtime).name]) ::
          walkList matcher opts a r d rest
      else walkList matcher opts a r d rest) := hinfo
    rw [if_pos hkeep] at hinfo'
    rcases List.mem_cons.mp hinfo' with rfl | hmem
    · refine ⟨[(FSEntry.file nm content mtime).name], by simp, rfl, ?_⟩
      intro k hk0 hk1
      have hk : k = 1 := by
        simp only [List.length_cons, List.length_nil] at hk1
        omega
      subst hk
      show matcher (r ++ [(FSEntry.file nm content mtime).name]) = false
      exact Bool.not_eq_true _ ▸ hig
    · exact ihrest info hmem
  · intro a r d rest nm content mtime nm1 hhid fullRel hig hskip ihrest info hinfo
    rw [walkList, if_neg hhid, if_neg hig] at hinfo
    have hinfo' : info ∈ (if patternKeeps opts.pattern (FSEntry.file nm content mtime).name then
        fileInfoOf (FSEntry.file nm content mtime)
            (a ++ [(FSEntry.file nm content mtime).name]) ::
          walkList matcher opts a r d rest
      else walkList matcher opts a r d rest) := hinfo
    rw [if_neg hskip] at hinfo'
    exact ihrest info hinfo'

/-- The walk-loop invariant at the `walkDirectory` entry point. -/
theorem walkDirectory_unignored (matcher : IgnoreMatcher) (opts : ListFilesOptions)
    (absPath relPath : List (List Char)) (depth : Nat) (entries : List FSEntry) :
    ∀ info ∈ walkDirectory matcher opts absPath relPath depth entries,
      ∃ suf, suf ≠ [] ∧ info.path = absPath ++ suf ∧
        ∀ k, 0 < k → k ≤ suf.length → matcher (relPath ++ suf.take k) = false := by
  intro info hinfo
  by_cases h : depth > opts.maxDepth
  · rw [walkDirectory, if_pos h] at hinfo
    cases hinfo
  · rw [walkDirectory, if_neg h] at hinfo
    exact walkList_unignored matcher opts absPath relPath depth entries info hinfo

/-- Membership in a collected forest is membership in some tree of it. -/
theorem mem_collectNodesList {info : FileInfo} :
    ∀ {ts : List DirTreeNode},
      info ∈ collectNodesList ts ↔ ∃ t ∈ ts, info ∈ collectNodes t := by
  intro ts
  induction ts with
  | nil =>
    rw [collectNodesList]
    simp
  | cons t rest ih =>
    rw [collectNodesList]
    simp only [List.mem_append, ih, List.mem_cons]
    constructor
    · rintro (h | ⟨u, hu, hm⟩)
      · exact ⟨t, Or.inl rfl, h⟩
      · exact ⟨u, Or.inr hu, hm⟩
    · rintro ⟨u, rfl | hu, hm⟩
      · exact Or.inl hm
      · exact Or.inr ⟨u, hu, hm⟩

/-- Every `FileInfo` in a built tree lies at the tree's base extended by a
suffix whose nonempty prefixes the matcher all rejects — ignored directories
and everything beneath them appear nowhere in the tree. -/
theorem treeNodes_unignored (matcher : IgnoreMatcher) (opts : TreeOptions) :
    ∀ e absPath relPath depth,
      ∀ info ∈ collectNodes (getDirectoryTree matcher opts e absPath relPath depth),
        ∃ suf, info.path = absPath ++ suf ∧
          ∀ k, 0 < k → k ≤ suf.length → matcher (relPath ++ suf.take k) = false := by
  refine getDirectoryTree.induct matcher opts
    (fun e a r d =>
      ∀ info ∈ collectNodes (getDirectoryTree matcher opts e a r d),
        ∃ suf, info.path = a ++ suf ∧
          ∀ k, 0 < k → k ≤ suf.length → matcher (r ++ suf.take k) = false)
    (fun a r d es =>
      ∀ t ∈ treeChildren matcher opts a r d es, ∀ info ∈ collectNodes t,
        ∃ suf, suf ≠ [] ∧ info.path = a ++ suf ∧
          ∀ k, 0 < k → k ≤ suf.length → matcher (r ++ suf.take k) = false)
    ?_ ?_ ?_ ?_ ?_ ?_ ?_
  · intro a r d nm content mtime info hinfo
    rw [getDirectoryTree, collectNodes] at hinfo
    rcases List.mem_singleton.mp hinfo with rfl
    refine ⟨[], (List.append_nil a).symm, ?_⟩
    intro k hk0 hk1
    simp only [List.length_nil] at hk1
    omega
  · intro a r d nm mtime children hge info hinfo
    rw [getDirectoryTree] at hinfo
    simp only [if_pos hge] at hinfo
    rw [collectNodes] at hinfo
    rcases List.mem_singleton.mp hinfo with rfl
    refine ⟨[], (List.append_nil a).symm, ?_⟩
    intro k hk0 hk1
    simp only [List.length_nil] at hk1
    omega
  · intro a r d nm mtime children hlt h2 info hinfo
    rw [getDirectoryTree] at hinfo
    simp only [if_neg hlt] at hinfo
    rw [collectNodes] at hinfo
    rcases List.mem_cons.mp hinfo with rfl | hmem
    · refine ⟨[], (List.append_nil a).symm, ?_⟩
      intro k hk0 hk1
      simp only [List.length_nil] at hk1
      omega
    · rcases mem_collectNodesList.mp hmem with ⟨t, htm, hm⟩
      have htm' : t ∈ treeChildren matcher opts a r d children :=
        (List.mergeSort_perm _ nodeLe).mem_iff.mp htm
      rcases h2 t htm' info hm with ⟨suf, _, hpath, hprop⟩
      exact ⟨suf, hpath, hprop⟩
  · intro a r d t ht
    rw [treeChildren] at ht
    cases ht
  · intro a r d e rest nm hhid ih t ht
    rw [treeChildren, if_pos hhid] at ht
    exact ih t ht
  · intro a r d e rest nm hhid fullRel hig ih t ht
    rw [treeChildren, if_neg hhid, if_pos hig] at ht
    exact ih t ht
  · intro a r d e rest nm hhid fullAbs fullRel hig ihnode ihrest t ht info hinfo
    rw [treeChildren, if_neg hhid, if_neg hig] at ht
    rcases List.mem_cons.mp ht with rfl | hmem
    · rcases ihnode info hinfo with ⟨suf', hpath', hprop'⟩
      refine ⟨e.name :: suf', by simp, ?_, ?_⟩
      · rw [hpath', List.append_assoc]
        rfl
      · intro k hk0 hklen
        obtain ⟨j, rfl⟩ : ∃ j, k = j + 1 := ⟨k - 1, by omega⟩
        rw [List.take_succ_cons, List.append_cons]
        rcases Nat.eq_zero_or_pos j with rfl | hj
        · rw [List.take_zero, List.append_nil]
          exact Bool.not_eq_true _ ▸ hig
        · refine hprop' j hj ?_
          simp only [List.length_cons] at hklen
          omega
    · exact ihrest t hmem info hinfo

/-- C5: when the ignore rules match a directory below the base, neither the
flat listing (`listFiles`, any options including a `namePattern`) nor the
nested tree contains that directory or any of its descendants: every
produced `FileInfo` sits on a base-relative path none of whose nonempty
prefixes the matcher accepts. -/
theorem ignored_subtree_pruned (matcher : IgnoreMatcher)
    (lopts : ListFilesOptions) (topts : TreeOptions)
    (base : List (List Char)) (rootEntry : FSEntry) :
    (∀ info ∈ listFilesPure matcher lopts base rootEntry.childEntries,
      ∃ suf, suf ≠ [] ∧ info.path = base ++ suf ∧
        ∀ k, 0 < k → k ≤ suf.length → matcher (suf.take k) = false) ∧
    (∀ info ∈ collectNodes (getDirectoryTree matcher topts rootEntry base [] 0),
      ∃ suf, info.path = base ++ suf ∧
        ∀ k, 0 < k → k ≤ suf.length → matcher (suf.take k) = false) := by
  constructor
  · intro info hinfo
    rw [listFilesPure] at hinfo
    have hmem := (List.mergeSort_perm _ fileInfoLe).mem_iff.mp hinfo
    rcases walkDirectory_unignored matcher lopts base [] 0 rootEntry.childEntries
      info hmem with ⟨suf, hne, hpath, hprop⟩
    refine ⟨suf, hne, hpath, ?_⟩
    intro k hk0 hk1
    have := hprop k hk0 hk1
    rwa [List.nil_append] at this
  · intro info hinfo
    rcases treeNodes_unignored matcher topts rootEntry base [] 0 info hinfo with
      ⟨suf, hpath, hprop⟩
    refine ⟨suf, hpath, ?_⟩
    intro k hk0 hk1
    have := hprop k hk0 hk1
    rwa [List.nil_append] at this

set_option maxRecDepth 65536 in
set_option maxHeartbeats 1000000 in
unseal List.merge List.mergeSort walkDirectory walkList gmatch gmatchPre in
/-- C5 witness: with `skip` ignored and `namePattern = "*"` (which matches
the descendant file `b`), the listing of `[skip/[b], a]` still contains the
file `a`, and both the listing member and the tree root satisfy the
no-ignored-prefix property given by the theorem. -/
theorem ignored_subtree_pruned_witness :
    ((fileInfoOf (.file (chars "a") (chars "x") 0) [chars "a"]) ∈
      listFilesPure (fun rel => rel.take 1 == [chars "skip"])
        ⟨true, 10, false, some (chars "*")⟩ []
        (FSEntry.dir (chars "root") 0
          [FSEntry.dir (chars "skip") 0 [.file (chars "b") (chars "y") 0],
           FSEntry.file (chars "a") (chars "x") 0]).childEntries ∧
      ∃ suf, suf ≠ [] ∧
        (fileInfoOf (.file (chars "a") (chars "x") 0) [chars "a"]).path = [] ++ suf ∧
        ∀ k, 0 < k → k ≤ suf.length →
          (fun rel => rel.take 1 == [chars "skip"] : IgnoreMatcher) (suf.take k) = false) ∧
    ((fileInfoOf (FSEntry.dir (chars "root") 0
        [FSEntry.dir (chars "skip") 0 [.file (chars "b") (chars "y") 0],
         FSEntry.file (chars "a") (chars "x") 0]) []) ∈
      collectNodes (getDirectoryTree (fun rel => rel.take 1 == [chars "skip"])
        ⟨10, false⟩
        (FSEntry.dir (chars "root") 0
          [FSEntry.dir (chars "skip") 0 [.file (chars "b") (chars "y") 0],
           FSEntry.file (chars "a") (chars "x") 0]) [] [] 0) ∧
      ∃ suf,
        (fileInfoOf (FSEntry.dir (chars "root") 0
          [FSEntry.dir (chars "skip") 0 [.file (chars "b") (chars "y") 0],
           FSEntry.file (chars "a") (chars "x") 0]) []).path = [] ++ suf ∧
        ∀ k, 0 < k → k ≤ suf.length →
          (fun rel => rel.take 1 == [chars "skip"] : IgnoreMatcher) (suf.take k) = false) := by
  have h := ignored_subtree_pruned (fun rel => rel.take 1 == [chars "skip"])
    ⟨true, 10, false, some (chars "*")⟩ ⟨10, false⟩ []
    (FSEntry.dir (chars "root") 0
      [FSEntry.dir (chars "skip") 0 [.file (chars "b") (chars "y") 0],
       FSEntry.file (chars "a") (chars "x") 0])
  have hm1 : (fileInfoOf (.file (chars "a") (chars "x") 0) [chars "a"]) ∈
      listFilesPure (fun rel => rel.take 1 == [chars "skip"])
        ⟨true, 10, false, some (chars "*")⟩ []
        (FSEntry.dir (chars "root") 0
          [FSEntry.dir (chars "skip") 0 [.file (chars "b") (chars "y") 0],
           FSEntry.file (chars "a") (chars "x") 0]).childEntries := by decide
  have hm2 : (fileInfoOf (FSEntry.dir (chars "root") 0
      [FSEntry.dir (chars "skip") 0 [.file (chars "b") (chars "y") 0],
       FSEntry.file (chars "a") (chars "x") 0]) []) ∈
      collectNodes (getDirectoryTree (fun rel => rel.take 1 == [chars "skip"])
        ⟨10, false⟩
        (FSEntry.dir (chars "root") 0
          [FSEntry.dir (chars "skip") 0 [.file (chars "b") (chars "y") 0],
           FSEntry.file (chars "a") (chars "x") 0]) [] [] 0) := by decide
  exact ⟨⟨hm1, h.1 _ hm1⟩, ⟨hm2, h.2 _ hm2⟩⟩

/-! ### `read_files`: size limit, partial success, path-count limits -/

/-- The relative-resolution loop emits only validation events. -/
theorem resolveLoop_log_validate (normRes : Path → Path) (fs : FlatFS)
    (filePath : Path) :
    ∀ roots ev, ev ∈ (resolveLoop normRes fs filePath roots).2 →
      ∃ q, ev = FsEvent.validate q := by
  intro roots
  induction roots with
  | nil =>
    intro ev h
    cases h
  | cons root rest ih =>
    intro ev h
    rw [resolveLoop] at h
    split at h
    · split at h
      · rcases List.mem_singleton.mp h with rfl
        exact ⟨_, rfl⟩
      · rcases List.mem_cons.mp h with rfl | h2
        · exact ⟨_, rfl⟩
        · exact ih ev h2
    · rcases List.mem_cons.mp h with rfl | h2
      · exact ⟨_, rfl⟩
      · exact ih ev h2

/-- `resolveFilePath` emits only validation events. -/
theorem resolveFilePath_log_validate (normRes : Path → Path) (fs : FlatFS)
    (roots : List Path) (filePath : Path) :
    ∀ ev ∈ (resolveFilePath normRes fs roots filePath).2,
      ∃ q, ev = FsEvent.validate q := by
  intro ev h
  rw [resolveFilePath] at h
  by_cases habs : isAbsolutePath filePath
  · rw [if_pos habs] at h
    rcases List.mem_singleton.mp h with rfl
    exact ⟨_, rfl⟩
  · rw [if_neg habs] at h
    exact resolveLoop_log_validate normRes fs filePath roots ev h

/-- C9: with parse and range checks passed, the batch handler returns one
result per requested path (no abort); a resolvable file whose stat size
exceeds `maxFileSize` yields a `TooLarge` error carrying both the actual and
the maximum size, its processing performing no content read at all; and a
resolvable well-sized sibling in the same batch is read successfully, its
content read recorded. -/
theorem readFiles_tooLarge_partial (normRes : Path → Path) (fs : FlatFS)
    (roots : List Path) (input : RawInput) (params : ReadFilesInput)
    (hparse : parseInput input = .ok params)
    (hrange : ∀ s e, params.startLine = some s → params.endLine = some e → ¬ s > e) :
    (readFilesHandler normRes fs roots input =
      (.ok (params.paths.map (entryResult normRes fs roots params)),
        (params.paths.map (entryLog normRes fs roots params)).flatten) ∧
      (params.paths.map (entryResult normRes fs roots params)).length =
        params.paths.length) ∧
    (∀ p v content mtime, p ∈ params.paths →
      (resolveFilePath normRes fs roots p).1 = .ok v →
      flatLookup fs v = some (.file content mtime) →
      content.length > params.maxFileSize →
      entryResult normRes fs roots params p =
        ⟨p, .error (.tooLarge content.length params.maxFileSize)⟩ ∧
      ∀ q, FsEvent.contentRead q ∉ entryLog normRes fs roots params p) ∧
    (∀ p v content mtime, p ∈ params.paths →
      (resolveFilePath normRes fs roots p).1 = .ok v →
      flatLookup fs v = some (.file content mtime) →
      ¬ content.length > params.maxFileSize →
      (entryResult normRes fs roots params p).result.isOk = true ∧
      FsEvent.contentRead v ∈ entryLog normRes fs roots params p) := by
  have hrun : readFilesHandler normRes fs roots input =
      runBatch normRes fs roots params := by
    rw [readFilesHandler, hparse]
    show (match params.startLine, params.endLine with
      | some s, some e =>
        if s > e then
          ((.error .invalidRange, []) :
            Except ToolError (List FileResult) × List FsEvent)
        else runBatch normRes fs roots params
      | _, _ => runBatch normRes fs roots params) = runBatch normRes fs roots params
    cases hs : params.startLine with
    | none => rfl
    | some s =>
      cases he : params.endLine with
      | none => rfl
      | some e =>
        show (if s > e then
            ((.error .invalidRange, []) :
              Except ToolError (List FileResult) × List FsEvent)
          else runBatch normRes fs roots params) = runBatch normRes fs roots params
        rw [if_neg (hrange s e hs he)]
  refine ⟨⟨by rw [hrun]; rfl, by rw [List.length_map]⟩, ?_, ?_⟩
  · intro p v content mtime hp hres hlook hbig
    have hpair : resolveFilePath normRes fs roots p =
        ((resolveFilePath normRes fs roots p).1,
          (resolveFilePath normRes fs roots p).2) := rfl
    rw [hres] at hpair
    have hsingle : readSingleFile normRes fs roots params p =
        (.error (.tooLarge content.length params.maxFileSize),
          (resolveFilePath normRes fs roots p).2 ++ [.statRead v]) := by
      rw [readSingleFile, hpair]
      simp only [hlook, if_pos hbig]
    constructor
    · rw [entryResult, hsingle]
    · intro q hq
      rw [entryLog, hsingle] at hq
      rcases List.mem_append.mp hq with h1 | h2
      · rcases resolveFilePath_log_validate normRes fs roots p _ h1 with ⟨w, hw⟩
        cases hw
      · rcases List.mem_singleton.mp h2
  · intro p v content mtime hp hres hlook hsmall
    have hpair : resolveFilePath normRes fs roots p =
        ((resolveFilePath normRes fs roots p).1,
          (resolveFilePath normRes fs roots p).2) := rfl
    rw [hres] at hpair
    have hsingle : readSingleFile normRes fs roots params p =
        (.ok (relativeDisplay roots p v,
            if params.showLineNumbers then
              addLineNumbers (readFileContent content params.startLine params.endLine)
                (params.startLine.getD 1)
            else readFileContent content params.startLine params.endLine),
          ((resolveFilePath normRes fs roots p).2 ++ [.statRead v]) ++
            [.contentRead v]) := by
      rw [readSingleFile, hpair]
      simp only [hlook, if_neg hsmall]
    constructor
    · rw [entryResult, hsingle]
      rfl
    · rw [entryLog, hsingle]
      simp

/-- C9 witness: reading `/r/big.txt` (2,000,000 bytes) and `/r/ok.txt`
(2 bytes) with `maxFileSize = 1024` yields a `TooLarge 2000000 1024` entry
without any content read for the big file, a successful read of the
sibling, and a two-entry, non-aborted batch result. -/
theorem readFiles_tooLarge_partial_witness :
    parseInput oversizeInput = .ok oversizeParams ∧
    entryResult id oversizeFS [chars "/r"] oversizeParams (chars "/r/big.txt") =
      ⟨chars "/r/big.txt", .error (.tooLarge 2000000 1024)⟩ ∧
    (∀ q, FsEvent.contentRead q ∉
      entryLog id oversizeFS [chars "/r"] oversizeParams (chars "/r/big.txt")) ∧
    (entryResult id oversizeFS [chars "/r"] oversizeParams
      (chars "/r/ok.txt")).result.isOk = true ∧
    FsEvent.contentRead (chars "/r/ok.txt") ∈
      entryLog id oversizeFS [chars "/r"] oversizeParams (chars "/r/ok.txt") ∧
    (readFilesHandler id oversizeFS [chars "/r"] oversizeInput).1 =
      .ok (oversizeParams.paths.map
        (entryResult id oversizeFS [chars "/r"] oversizeParams)) := by
  have hparse : parseInput oversizeInput = .ok oversizeParams := rfl
  have h := readFiles_tooLarge_partial id oversizeFS [chars "/r"] oversizeInput
    oversizeParams hparse (by intro s e hs he; cases hs)
  have hbig := h.2.1 (chars "/r/big.txt") (chars "/r/big.txt")
    (List.replicate 2000000 'a') 0 (by decide) rfl rfl
    (by rw [List.length_replicate]; decide)
  have hok := h.2.2 (chars "/r/ok.txt") (chars "/r/ok.txt") (chars "hi") 0
    (by decide) rfl rfl (by decide)
  refine ⟨hparse, ?_, hbig.2, hok.1, hok.2, by rw [h.1.1]⟩
  have hlen : (List.replicate 2000000 'a').length = 2000000 :=
    List.length_replicate ..
  rw [hlen] at hbig
  exact hbig.1

/-- C10: when the extracted path list is empty the handler fails before any
validation, resolution or read (empty event log, no per-file results); when
it has more than ten entries likewise; and with one to ten entries parsing
succeeds with exactly those paths. -/
theorem readFiles_path_count_limits (normRes : Path → Path) (fs : FlatFS)
    (roots : List Path) (input : RawInput) (l : List Path)
    (hext : extractPaths input.path input.paths = .ok l) :
    (l.length = 0 →
      readFilesHandler normRes fs roots input = (.error .emptyPaths, [])) ∧
    (l.length > 10 →
      readFilesHandler normRes fs roots input = (.error .tooManyPaths, [])) ∧
    (1 ≤ l.length → l.length ≤ 10 →
      ∃ params, parseInput input = .ok params ∧ params.paths = l) := by
  refine ⟨?_, ?_, ?_⟩
  · intro h0
    have hp : parseInput input = .error .emptyPaths := by
      rw [parseInput, hext]
      simp only [if_pos h0]
    rw [readFilesHandler, hp]
  · intro h10
    have hne : ¬ l.length = 0 := by omega
    have hp : parseInput input = .error .tooManyPaths := by
      rw [parseInput, hext]
      simp only [if_neg hne, if_pos h10]
    rw [readFilesHandler, hp]
  · intro h1 h10
    have hne : ¬ l.length = 0 := by omega
    have hngt : ¬ l.length > 10 := by omega
    refine ⟨ReadFilesInput.mk l
      ((asNum input.startLine).map (fun n => (max 1 n).toNat))
      ((asNum input.endLine).map (fun n => (max 1 n).toNat))
      (match input.encoding with
        | some (.jstr s) => if validEncodings.contains s then s else chars "utf-8"
        | _ => chars "utf-8")
      (match input.showLineNumbers with
        | some (.jbool b) => b
        | _ => true)
      (match asNum input.maxFileSize with
        | some n => (max 1024 n).toNat
        | none => 1048576), ?_, rfl⟩
    rw [parseInput, hext]
    simp only [if_neg hne, if_neg hngt]

/-- C10 witness: eleven string paths are rejected with the too-many error
and an empty event log; an array with no string entry is rejected as empty;
a single `path` string parses to that one path. -/
theorem readFiles_path_count_limits_witness :
    readFilesHandler id [] []
        { paths := some (.jarr (List.replicate 11 (.jstr (chars "p")))) } =
      (.error .tooManyPaths, []) ∧
    readFilesHandler id [] [] { paths := some (.jarr [.jnum 1]) } =
      (.error .emptyPaths, []) ∧
    ∃ params, parseInput { path := some (.jstr (chars "p")) } = .ok params ∧
      params.paths = [chars "p"] := by
  have h1 := readFiles_path_count_limits id [] []
    { paths := some (.jarr (List.replicate 11 (.jstr (chars "p")))) }
    (List.replicate 11 (chars "p")) rfl
  have h2 := readFiles_path_count_limits id [] []
    { paths := some (.jarr [.jnum 1]) } [] rfl
  have h3 := readFiles_path_count_limits id [] []
    { path := some (.jstr (chars "p")) } [chars "p"] rfl
  exact ⟨h1.2.1 (by decide), h2.1 rfl, h3.2.2 (by decide) (by decide)⟩

end DocFS
